import Mathlib

/- Verification development for the cc-notify configuration hook installer.

   Part one embeds the line-oriented TOML notify patcher (package config:
   UpsertNotify, RemoveNotify and their scanning helpers).  Go strings are
   modelled as `List Char`; byte-level scanning of the source coincides with
   character-level scanning on every construct the patcher inspects.

   Part two embeds the Claude settings JSON hook patcher (ClaudeUpsertHook,
   ClaudeRemoveHook) over an untyped JSON value type together with a
   fuel-based JSON reader standing in for encoding/json. -/

set_option maxHeartbeats 1000000

abbrev Str := List Char

def lstr (s : String) : Str := s.data

/-- Decoded UTF-8 byte-order mark codepoint. -/
def bomChar : Char := '\uFEFF'

/-- Go `stripBOM`: remove a leading BOM, returning it and the remainder.
    The source checks both the raw three-byte form and the decoded
    codepoint; in the character model both are the single char U+FEFF. -/
def stripBOM (content : Str) : Str × Str :=
  match content with
  | c :: rest => if c = bomChar then ([bomChar], rest) else ([], content)
  | [] => ([], [])

def containsCRLF : Str → Bool
  | '\r' :: '\n' :: _ => true
  | _ :: rest => containsCRLF rest
  | [] => false

/-- Go `detectNewline`. -/
def detectNewline (content : Str) : Str :=
  if containsCRLF content then ['\r', '\n'] else ['\n']

/-- Go `strings.ReplaceAll(content, "\r\n", "\n")`, left-to-right. -/
def replaceCRLF : Str → Str
  | '\r' :: '\n' :: rest => '\n' :: replaceCRLF rest
  | c :: rest => c :: replaceCRLF rest
  | [] => []

/-- Go `strings.TrimSuffix(s, "\n")`: drop one trailing newline. -/
def trimNLSuffix : Str → Str
  | [] => []
  | ['\n'] => []
  | c :: rest => c :: trimNLSuffix rest

/-- Remove one trailing carriage return: the merge effect that joining with
    LF followed by CRLF normalisation has on a line's final `\r`. -/
def stripCR : Str → Str
  | [] => []
  | ['\r'] => []
  | c :: rest => c :: stripCR rest

/-- Go `strings.Split(s, "\n")` (never returns an empty list). -/
def splitNL : Str → List Str
  | [] => [[]]
  | '\n' :: rest => [] :: splitNL rest
  | c :: rest =>
    match splitNL rest with
    | [] => [[c]]
    | l :: ls => (c :: l) :: ls

/-- Go `splitLines`. -/
def splitLines (content : Str) : List Str :=
  let normalized := trimNLSuffix (replaceCRLF content)
  if normalized = [] then [] else splitNL normalized

/-- Go `strings.Join`. -/
def intercalateStr (sep : Str) : List Str → Str
  | [] => []
  | [l] => l
  | l :: ls => l ++ sep ++ intercalateStr sep ls

/-- Go `joinLines`. -/
def joinLines (lines : List Str) (newline : Str) : Str :=
  if lines = [] then [] else intercalateStr newline lines ++ newline

/-- Whitespace as used by Go `strings.TrimSpace` (unicode.IsSpace); the
    Latin-1 range is covered, wider Zs codepoints never occur here. -/
def isGoSpace (c : Char) : Bool :=
  c = ' ' || c = '\t' || c = '\n' || c = '\x0b' || c = '\x0c' || c = '\r' ||
  c = '\u0085' || c = '\u00A0'

def trimLeftWS (s : Str) : Str := s.dropWhile isGoSpace

def trimRightWS (s : Str) : Str := (trimLeftWS s.reverse).reverse

/-- Go `strings.TrimSpace`. -/
def trimSpace (s : Str) : Str := trimRightWS (trimLeftWS s)

/-- Go `strings.TrimLeft(line, " \t")`. -/
def trimLeftCut (s : Str) : Str := s.dropWhile (fun c => c = ' ' || c = '\t')

/-- Go `strings.HasPrefix s p`. -/
def startsWithStr : Str → Str → Bool
  | _, [] => true
  | [], _ :: _ => false
  | c :: s, d :: p => c = d && startsWithStr s p

/-- Go `firstTableIndex`: index of the first line whose trimmed text starts
    with `[`; blank and comment lines are skipped, anything else continues
    the loop as well. -/
def firstTableIndex : List Str → Nat
  | [] => 0
  | line :: rest =>
    let trimmed := trimSpace line
    if trimmed = [] then 1 + firstTableIndex rest
    else if startsWithStr trimmed ['#'] then 1 + firstTableIndex rest
    else if startsWithStr trimmed ['['] then 0
    else 1 + firstTableIndex rest

/-- Length of the key prefix scanned by Go `isNotifyAssignmentStart`:
    characters up to the first space, tab or `=`. -/
def keyLength : Str → Nat
  | [] => 0
  | c :: rest =>
    if c = ' ' then 0
    else if c = '\t' then 0
    else if c = '=' then 0
    else 1 + keyLength rest

/-- Go `isNotifyAssignmentStart`. -/
def isNotifyAssignmentStart (line : Str) : Bool :=
  let trimmed := trimLeftCut line
  if trimmed = [] then false
  else if startsWithStr trimmed ['#'] then false
  else
    let keyEnd := keyLength trimmed
    if keyEnd = 0 then false
    else if trimmed.take keyEnd = lstr "notify" then
      startsWithStr (trimLeftCut (trimmed.drop keyEnd)) ['=']
    else false

/-- Go `afterEquals`: everything after the first `=`, or empty. -/
def afterEquals : Str → Str
  | [] => []
  | '=' :: rest => rest
  | _ :: rest => afterEquals rest

/-- One replacement step of the Go `strings.NewReplacer` in
    `quoteTOMLString`; every pattern is a single character. -/
def quoteChar (c : Char) : Str :=
  if c = '\\' then ['\\', '\\']
  else if c = '"' then ['\\', '"']
  else if c = '\t' then ['\\', 't']
  else if c = '\n' then ['\\', 'n']
  else if c = '\r' then ['\\', 'r']
  else [c]

/-- Go `quoteTOMLString`. -/
def quoteTOMLString (value : Str) : Str :=
  '"' :: (value.flatMap quoteChar) ++ ['"']

/-- Go `renderNotifyLine`. -/
def renderNotifyLine (command : List Str) : Str :=
  lstr "notify = [" ++ intercalateStr (lstr ", ") (command.map quoteTOMLString) ++ [']']

/-- Go `trimLeadingBlankLines`. -/
def trimLeadingBlankLines : List Str → List Str
  | [] => []
  | line :: rest =>
    if trimSpace line = [] then trimLeadingBlankLines rest else line :: rest

/-- Go `assignmentState`: bracketDepth is an Int, as the Go int. -/
structure AssignmentState where
  inString : Bool
  escape : Bool
  bracketDepth : Int
deriving DecidableEq, Repr

def initialAssignmentState : AssignmentState :=
  { inString := false, escape := false, bracketDepth := 0 }

/-- Go `(*assignmentState).scan`; the `#` case returns early, discarding the
    rest of the line. -/
def scanLine (s : AssignmentState) : Str → AssignmentState
  | [] => s
  | ch :: rest =>
    if s.inString then
      if s.escape then scanLine { s with escape := false } rest
      else if ch = '\\' then scanLine { s with escape := true } rest
      else if ch = '"' then scanLine { s with inString := false } rest
      else scanLine s rest
    else
      if ch = '"' then scanLine { s with inString := true } rest
      else if ch = '#' then s
      else if ch = '[' then scanLine { s with bracketDepth := s.bracketDepth + 1 } rest
      else if ch = ']' then
        scanLine { s with bracketDepth := if s.bracketDepth > 0 then s.bracketDepth - 1 else s.bracketDepth } rest
      else scanLine s rest

/-- Go `(assignmentState).needsContinuation`. -/
def needsContinuation (s : AssignmentState) : Bool :=
  s.inString || s.bracketDepth > 0

/-- The continuation loop in Go `findTopLevelNotify`: scan following lines
    while the state needs continuation, returning the final state and the
    number of lines consumed. -/
def consumeContinuation (st : AssignmentState) : List Str → AssignmentState × Nat
  | [] => (st, 0)
  | l :: rest =>
    if needsContinuation st then
      let (st', n) := consumeContinuation (scanLine st l) rest
      (st', n + 1)
    else (st, 0)

/-- Go `findTopLevelNotify` over the root lines, as a recursion that shifts
    the returned indices; result is (start, end, found) or the error. -/
def findTopLevelNotify : List Str → Except String (Nat × Nat × Bool)
  | [] => .ok (0, 0, false)
  | l :: rest =>
    if isNotifyAssignmentStart l then
      let st := scanLine initialAssignmentState (afterEquals l)
      let (st', n) := consumeContinuation st rest
      if needsContinuation st' then .error "unterminated top-level notify assignment"
      else .ok (0, 1 + n, true)
    else
      match findTopLevelNotify rest with
      | .error e => .error e
      | .ok (s, e, true) => .ok (s + 1, e + 1, true)
      | .ok _ => .ok (0, 0, false)

/-- Go `UpsertNotify`; the result models the Go triple
    (content, changed, err) with the error as an `Option String`. -/
def UpsertNotify (content : Str) (command : List Str) : Str × Bool × Option String :=
  if command = [] then ([], false, some "notify command cannot be empty")
  else
    let bc := stripBOM content
    let bom := bc.1
    let content := bc.2
    let newline := detectNewline content
    let lines := splitLines content
    let notifyLine := renderNotifyLine command
    if lines = [] then (bom ++ notifyLine ++ newline, true, none)
    else
      let firstTable := firstTableIndex lines
      match findTopLevelNotify (lines.take firstTable) with
      | .error e => ([], false, some e)
      | .ok (start, stop, found) =>
        if found then
          if stop - start = 1 ∧ trimSpace (lines.getD start []) = notifyLine then
            (bom ++ content, false, none)
          else
            (bom ++ joinLines (lines.take start ++ notifyLine :: lines.drop stop) newline, true, none)
        else
          if firstTable = 0 ∧ lines ≠ [] ∧ startsWithStr (trimSpace (lines.headD [])) ['['] then
            (bom ++ joinLines (notifyLine :: [] :: lines) newline, true, none)
          else
            (bom ++ joinLines (lines.take firstTable ++ notifyLine :: lines.drop firstTable) newline, true, none)

/-- Go `RemoveNotify`. -/
def RemoveNotify (content : Str) : Str × Bool × Option String :=
  let bc := stripBOM content
  let bom := bc.1
  let content := bc.2
  let newline := detectNewline content
  let lines := splitLines content
  if lines = [] then (bom ++ content, false, none)
  else
    let firstTable := firstTableIndex lines
    match findTopLevelNotify (lines.take firstTable) with
    | .error e => ([], false, some e)
    | .ok (start, stop, found) =>
      if found then
        (bom ++ joinLines (trimLeadingBlankLines (lines.take start ++ lines.drop stop)) newline, true, none)
      else (bom ++ content, false, none)

/-- Repeated application of the `findTopLevelNotify` scan, counting how many
    top-level notify assignments a scanner walking the root lines would
    find; fuel makes the recursion structural. -/
def countNotifyAux (fuel : Nat) (ls : List Str) : Nat :=
  match fuel, ls with
  | 0, _ => 0
  | _, [] => 0
  | fuel + 1, l :: rest =>
    if isNotifyAssignmentStart l then
      let st := scanLine initialAssignmentState (afterEquals l)
      let (_, n) := consumeContinuation st rest
      1 + countNotifyAux fuel (rest.drop n)
    else countNotifyAux fuel rest

/-- Number of top-level notify assignments found by scanning a document's
    root region. -/
def countTopLevelNotify (content : Str) : Nat :=
  let lines := splitLines (stripBOM content).2
  countNotifyAux lines.length (lines.take (firstTableIndex lines))

/- Part two: the Claude settings JSON hook patcher. -/

/-- Untyped JSON value, the shape `encoding/json` decodes into when the Go
    source uses `map[string]json.RawMessage` and friends.  Numbers keep
    their raw lexeme; objects are association lists (Go maps are unordered,
    duplicate keys collapse at parse time). -/
inductive Json where
  | null : Json
  | bool : Bool → Json
  | num : Str → Json
  | str : Str → Json
  | arr : List Json → Json
  | obj : List (Str × Json) → Json
deriving Repr

/-- First value bound to a key in an association-list object. -/
def lookupKey (m : List (Str × Json)) (k : Str) : Option Json :=
  match m with
  | [] => none
  | (k', v) :: rest => if k' = k then some v else lookupKey rest k

/-- Map update: replace the binding in place, or append a new one. -/
def insertKey (m : List (Str × Json)) (k : Str) (v : Json) : List (Str × Json) :=
  match m with
  | [] => [(k, v)]
  | (k', v') :: rest => if k' = k then (k, v) :: rest else (k', v') :: insertKey rest k v

/-- Map deletion. -/
def eraseKey (m : List (Str × Json)) (k : Str) : List (Str × Json) :=
  match m with
  | [] => []
  | (k', v') :: rest => if k' = k then eraseKey rest k else (k', v') :: eraseKey rest k

def skipJsonWS (s : Str) : Str :=
  s.dropWhile (fun c => c = ' ' || c = '\t' || c = '\n' || c = '\r')

def hexVal (c : Char) : Nat :=
  if '0' ≤ c ∧ c ≤ '9' then c.toNat - '0'.toNat
  else if 'a' ≤ c ∧ c ≤ 'f' then c.toNat - 'a'.toNat + 10
  else if 'A' ≤ c ∧ c ≤ 'F' then c.toNat - 'A'.toNat + 10
  else 0

/-- JSON string body after the opening quote: decoded content and the
    remainder after the closing quote. -/
def parseStringBody : Str → Option (Str × Str)
  | [] => none
  | '"' :: rest => some ([], rest)
  | '\\' :: 'u' :: h1 :: h2 :: h3 :: h4 :: rest =>
    match parseStringBody rest with
    | some (cs, r) =>
      some (Char.ofNat (((hexVal h1 * 16 + hexVal h2) * 16 + hexVal h3) * 16 + hexVal h4) :: cs, r)
    | none => none
  | '\\' :: e :: rest =>
    let d : Char :=
      if e = 'n' then '\n' else if e = 't' then '\t' else if e = 'r' then '\r'
      else if e = 'b' then '\x08' else if e = 'f' then '\x0c' else e
    match parseStringBody rest with
    | some (cs, r) => some (d :: cs, r)
    | none => none
  | c :: rest =>
    match parseStringBody rest with
    | some (cs, r) => some (c :: cs, r)
    | none => none

def isNumChar (c : Char) : Bool :=
  c.isDigit || c = '-' || c = '+' || c = '.' || c = 'e' || c = 'E'

mutual

/-- Fuel-based recursive-descent JSON value reader (the model of
    `json.Unmarshal` for the untyped settings bag). -/
def parseValue : Nat → Str → Option (Json × Str)
  | 0, _ => none
  | fuel + 1, s =>
    match skipJsonWS s with
    | 'n' :: 'u' :: 'l' :: 'l' :: rest => some (.null, rest)
    | 't' :: 'r' :: 'u' :: 'e' :: rest => some (.bool true, rest)
    | 'f' :: 'a' :: 'l' :: 's' :: 'e' :: rest => some (.bool false, rest)
    | '"' :: rest =>
      match parseStringBody rest with
      | some (cs, r) => some (.str cs, r)
      | none => none
    | '[' :: rest =>
      (match skipJsonWS rest with
       | ']' :: r => some (.arr [], r)
       | t =>
         match parseItems fuel t with
         | some (vs, r) => some (.arr vs, r)
         | none => none)
    | '{' :: rest =>
      (match skipJsonWS rest with
       | '}' :: r => some (.obj [], r)
       | t =>
         match parseFields fuel t with
         | some (fs, r) => some (.obj fs, r)
         | none => none)
    | c :: rest =>
      if isNumChar c then
        let lex := (c :: rest).takeWhile isNumChar
        some (.num lex, (c :: rest).drop lex.length)
      else none
    | [] => none

/-- Comma-separated array items, up to and including the closing bracket. -/
def parseItems : Nat → Str → Option (List Json × Str)
  | 0, _ => none
  | fuel + 1, s =>
    match parseValue fuel s with
    | none => none
    | some (v, rest) =>
      match skipJsonWS rest with
      | ',' :: r =>
        match parseItems fuel r with
        | some (vs, r') => some (v :: vs, r')
        | none => none
      | ']' :: r => some ([v], r)
      | _ => none

/-- Comma-separated object members, up to and including the closing brace. -/
def parseFields : Nat → Str → Option (List (Str × Json) × Str)
  | 0, _ => none
  | fuel + 1, s =>
    match skipJsonWS s with
    | '"' :: rest =>
      match parseStringBody rest with
      | none => none
      | some (k, r) =>
        match skipJsonWS r with
        | ':' :: r' =>
          (match parseValue fuel r' with
           | none => none
           | some (v, rest') =>
             match skipJsonWS rest' with
             | ',' :: r'' =>
               match parseFields fuel r'' with
               | some (fs, r3) => some ((k, v) :: fs, r3)
               | none => none
             | '}' :: r'' => some ([(k, v)], r'')
             | _ => none)
        | _ => none
    | _ => none

end

/-- Whole-document JSON parse: one value, nothing but whitespace after. -/
def parseJsonDoc (s : Str) : Option Json :=
  match parseValue (2 * s.length + 2) s with
  | some (v, rest) => if skipJsonWS rest = [] then some v else none
  | none => none

/-- The untyped top-level settings bag (Go `claudeSettings.raw`,
    a `map[string]json.RawMessage`). -/
abbrev ClaudeSettings := List (Str × Json)

/-- Go map semantics for object literals: a later duplicate key overwrites
    the earlier binding. -/
def dedupKeys (fields : List (Str × Json)) : List (Str × Json) :=
  fields.foldl (fun m kv => insertKey m kv.1 kv.2) []

/-- Go `parseClaudeSettings`: trim, treat empty as an empty object, decode a
    JSON object; a `null` document leaves the Go map nil, which the source
    replaces with an empty map. -/
def parseClaudeSettings (content : Str) : Except String ClaudeSettings :=
  let t := trimSpace content
  if t = [] then .ok []
  else
    match parseJsonDoc t with
    | none => .error "parse claude settings"
    | some .null => .ok []
    | some (.obj fields) => .ok (dedupKeys fields)
    | some _ => .error "parse claude settings"

/-- Go `claudeHookEntry`. -/
structure ClaudeHookEntry where
  entryType : Str
  command : Str
deriving DecidableEq, Repr

/-- Go `claudeHookMatcher`. -/
structure ClaudeHookMatcher where
  matcher : Str
  hooks : List ClaudeHookEntry
deriving DecidableEq, Repr

def claudeHookMarker : Str := lstr "cc-notify"

/-- Go `strings.Contains`. -/
def containsStr : Str → Str → Bool
  | [], pat => startsWithStr [] pat
  | s@(_ :: rest), pat => startsWithStr s pat || containsStr rest pat

/-- Unmarshal of a JSON value into `claudeHookEntry`: unknown fields are
    dropped, absent fields stay zero, `null` is a no-op, a non-object or a
    wrongly-typed field is an error. -/
def decodeHookEntry (v : Json) : Except String ClaudeHookEntry :=
  match v with
  | .null => .ok { entryType := [], command := [] }
  | .obj fields => do
    let t ← match lookupKey fields (lstr "type") with
      | none => .ok []
      | some (.str s) => .ok s
      | some _ => .error "parse hook entry"
    let c ← match lookupKey fields (lstr "command") with
      | none => .ok []
      | some (.str s) => .ok s
      | some _ => .error "parse hook entry"
    .ok { entryType := t, command := c }
  | _ => .error "parse hook entry"

/-- Unmarshal of a JSON value into `claudeHookMatcher`. -/
def decodeHookMatcher (v : Json) : Except String ClaudeHookMatcher :=
  match v with
  | .null => .ok { matcher := [], hooks := [] }
  | .obj fields => do
    let m ← match lookupKey fields (lstr "matcher") with
      | none => .ok []
      | some (.str s) => .ok s
      | some _ => .error "parse hook matcher"
    let hs ← match lookupKey fields (lstr "hooks") with
      | none => .ok []
      | some .null => .ok []
      | some (.arr xs) => xs.mapM decodeHookEntry
      | some _ => .error "parse hook matcher"
    .ok { matcher := m, hooks := hs }
  | _ => .error "parse hook matcher"

/-- Unmarshal of a raw event value into `[]claudeHookMatcher`. -/
def decodeMatcherList (v : Json) : Except String (List ClaudeHookMatcher) :=
  match v with
  | .null => .ok []
  | .arr xs => xs.mapM decodeHookMatcher
  | _ => .error "parse hook event"

/-- Go `claudeSettings.getHooks`. -/
def getHooks (s : ClaudeSettings) : Except String (List (Str × Json)) :=
  match lookupKey s (lstr "hooks") with
  | none => .ok []
  | some .null => .ok []
  | some (.obj fs) => .ok (dedupKeys fs)
  | some _ => .error "parse hooks"

/-- Go `getMatcherList`. -/
def getMatcherList (hooks : List (Str × Json)) (event : Str) :
    Except String (List ClaudeHookMatcher) :=
  match lookupKey hooks event with
  | none => .ok []
  | some v => decodeMatcherList v

def encodeHookEntry (h : ClaudeHookEntry) : Json :=
  .obj [(lstr "type", .str h.entryType), (lstr "command", .str h.command)]

def encodeHookMatcher (m : ClaudeHookMatcher) : Json :=
  .obj [(lstr "matcher", .str m.matcher), (lstr "hooks", .arr (m.hooks.map encodeHookEntry))]

/-- Go `setMatcherList` (marshal the list back into the event key). -/
def setMatcherList (hooks : List (Str × Json)) (event : Str)
    (matchers : List ClaudeHookMatcher) : List (Str × Json) :=
  insertKey hooks event (.arr (matchers.map encodeHookMatcher))

/-- Go `claudeSettings.setHooks`. -/
def setHooks (s : ClaudeSettings) (hooks : List (Str × Json)) : ClaudeSettings :=
  insertKey s (lstr "hooks") (.obj hooks)

/-- The inner loop of Go `removeOurHook`: split one group's entries,
    keeping the foreign ones in order and flagging whether any entry whose
    command contains the marker was dropped. -/
def filterOurEntries : List ClaudeHookEntry → List ClaudeHookEntry × Bool
  | [] => ([], false)
  | h :: t =>
    let (f, c) := filterOurEntries t
    if containsStr h.command claudeHookMarker then (f, true) else (h :: f, c)

/-- Go `removeOurHook`. -/
def removeOurHook : List ClaudeHookMatcher → List ClaudeHookMatcher × Bool
  | [] => ([], false)
  | m :: t =>
    let (filtered, c) := filterOurEntries m.hooks
    let (res, c') := removeOurHook t
    let keep : List ClaudeHookMatcher :=
      if filtered ≠ [] then [{ m with hooks := filtered }]
      else if m.hooks ≠ [] then []
      else [m]
    (keep ++ res, c || c')

/-- Go `containsOurHook`. -/
def containsOurHook (matchers : List ClaudeHookMatcher) : Bool :=
  matchers.any (fun m => m.hooks.any (fun h => containsStr h.command claudeHookMarker))

/-- Go `buildNotifyCommand`. -/
def buildNotifyCommand (exePath : Str) : Str :=
  exePath ++ lstr " notify --claude"

/-- JSON string escaping for the printer. -/
def escapeJsonChar (c : Char) : Str :=
  if c = '"' then ['\\', '"']
  else if c = '\\' then ['\\', '\\']
  else if c = '\n' then ['\\', 'n']
  else if c = '\t' then ['\\', 't']
  else if c = '\r' then ['\\', 'r']
  else [c]

mutual

/-- JSON printer standing in for `json.MarshalIndent` (indentation and key
    order are not constrained by any claim). -/
def serializeJson : Json → Str
  | .null => lstr "null"
  | .bool true => lstr "true"
  | .bool false => lstr "false"
  | .num s => s
  | .str s => '"' :: s.flatMap escapeJsonChar ++ ['"']
  | .arr xs => '[' :: serializeItems xs ++ [']']
  | .obj fs => '{' :: serializeFields fs ++ ['}']

def serializeItems : List Json → Str
  | [] => []
  | [x] => serializeJson x
  | x :: xs => serializeJson x ++ [','] ++ serializeItems xs

def serializeFields : List (Str × Json) → Str
  | [] => []
  | [(k, v)] => '"' :: k.flatMap escapeJsonChar ++ ['"', ':'] ++ serializeJson v
  | (k, v) :: fs =>
    '"' :: k.flatMap escapeJsonChar ++ ['"', ':'] ++ serializeJson v ++ [','] ++ serializeFields fs

end

/-- Go `claudeSettings.serialize` (marshal plus one trailing newline). -/
def serializeSettings (s : ClaudeSettings) : Str :=
  serializeJson (.obj s) ++ ['\n']

/-- The body of the event loop in Go `ClaudeUpsertHook`, processed
    event by event; the Boolean threads `anyChanged`. -/
def claudeUpsertEvents (hooks : List (Str × Json)) (cmd : Str) (anyChanged : Bool) :
    List Str → Except String (List (Str × Json) × Bool)
  | [] => .ok (hooks, anyChanged)
  | event :: rest => do
    let matchers ← getMatcherList hooks event
    let (matchers', removed) := removeOurHook matchers
    let anyChanged1 := anyChanged || removed
    let newMatcher : ClaudeHookMatcher :=
      { matcher := [], hooks := [{ entryType := lstr "command", command := cmd }] }
    let matchers'' := matchers' ++ [newMatcher]
    claudeUpsertEvents (setMatcherList hooks event matchers'') cmd (anyChanged1 || true) rest

/-- Go `ClaudeUpsertHook`. -/
def ClaudeUpsertHook (content exePath : Str) : Str × Bool × Option String :=
  match parseClaudeSettings content with
  | .error e => ([], false, some e)
  | .ok settings =>
    match getHooks settings with
    | .error e => ([], false, some e)
    | .ok hooks =>
      let cmd := buildNotifyCommand exePath
      match claudeUpsertEvents hooks cmd false [lstr "Stop", lstr "Notification"] with
      | .error e => ([], false, some e)
      | .ok (hooks', anyChanged) =>
        (serializeSettings (setHooks settings hooks'), anyChanged, none)

/-- The body of the event loop in Go `ClaudeRemoveHook`. -/
def claudeRemoveEvents (hooks : List (Str × Json)) (anyChanged : Bool) :
    List Str → Except String (List (Str × Json) × Bool)
  | [] => .ok (hooks, anyChanged)
  | event :: rest => do
    let matchers ← getMatcherList hooks event
    let (matchers', removed) := removeOurHook matchers
    if removed then
      if matchers' = [] then claudeRemoveEvents (eraseKey hooks event) true rest
      else claudeRemoveEvents (setMatcherList hooks event matchers') true rest
    else claudeRemoveEvents hooks anyChanged rest

/-- Go `ClaudeRemoveHook`. -/
def ClaudeRemoveHook (content : Str) : Str × Bool × Option String :=
  match parseClaudeSettings content with
  | .error e => ([], false, some e)
  | .ok settings =>
    match getHooks settings with
    | .error e => ([], false, some e)
    | .ok hooks =>
      match claudeRemoveEvents hooks false [lstr "Stop", lstr "Notification"] with
      | .error e => ([], false, some e)
      | .ok (hooks', anyChanged) =>
        if anyChanged then
          (serializeSettings
            (match hooks' with
             | [] => eraseKey settings (lstr "hooks")
             | _ => setHooks settings hooks'),
           true, none)
        else (content, false, none)

/-- Declarative per-group stripping, phrased from the spec's words: remove
    exactly the marked entries, keep foreign ones in order, drop the group
    exactly when the removal empties a previously non-empty hooks list. -/
def stripGroupSpec (m : ClaudeHookMatcher) : Option ClaudeHookMatcher :=
  let foreign := m.hooks.filter (fun h => ! containsStr h.command claudeHookMarker)
  if foreign = [] ∧ m.hooks ≠ [] then none
  else some { m with hooks := foreign }

/-- One iteration of Go `ClaudeRemoveHook`'s event loop, written out on the
    decoded matcher list of that event: strip, then either erase the event
    key (stripping emptied the list), write the stripped list back, or leave
    the map alone when nothing was stripped. -/
def removeEventStep (hooks : List (Str × Json)) (event : Str)
    (ms : List ClaudeHookMatcher) : List (Str × Json) :=
  let (ms', removed) := removeOurHook ms
  if removed then
    if ms' = [] then eraseKey hooks event
    else setMatcherList hooks event ms'
  else hooks

/-- The matcher group Go `ClaudeUpsertHook` appends for one event: empty
    matcher, one entry of type "command" with the given command string. -/
def newHookMatcher (cmd : Str) : ClaudeHookMatcher :=
  { matcher := [], hooks := [{ entryType := lstr "command", command := cmd }] }

/-- Number of hook entries across all matcher groups whose command contains
    the marker. -/
def countMarkerEntries (ms : List ClaudeHookMatcher) : Nat :=
  (ms.map (fun m =>
    (m.hooks.filter (fun h => containsStr h.command claudeHookMarker)).length)).sum

/- Theorems. -/

theorem scanLine_depth_nonneg (line : Str) :
    ∀ s : AssignmentState, 0 ≤ s.bracketDepth → 0 ≤ (scanLine s line).bracketDepth := by
  induction line with
  | nil => intro s h; simpa [scanLine] using h
  | cons c rest ih =>
    intro s h
    simp only [scanLine]
    split_ifs with h1 h2 h3 h4 h5 h6 h7 h8 <;>
      first
      | exact ih _ h
      | exact ih _ (by simp; omega)
      | simpa using h

/-- C6: feeding any sequence of lines to the assignment state tracker from
    the initial state never drives the bracket depth negative, and
    needsContinuation holds exactly when a string is open or the depth is
    positive. -/
theorem assignment_scan_invariant :
    (∀ lines : List Str, 0 ≤ (lines.foldl scanLine initialAssignmentState).bracketDepth) ∧
    (∀ s : AssignmentState,
      needsContinuation s = true ↔ (s.inString = true ∨ 0 < s.bracketDepth)) := by
  constructor
  · intro lines
    have key : ∀ (ls : List Str) (s : AssignmentState), 0 ≤ s.bracketDepth →
        0 ≤ (ls.foldl scanLine s).bracketDepth := by
      intro ls
      induction ls with
      | nil => intro s h; simpa using h
      | cons l rest ih =>
        intro s h
        exact ih _ (scanLine_depth_nonneg l s h)
    exact key lines initialAssignmentState (by simp [initialAssignmentState])
  · intro s
    simp [needsContinuation]

theorem filterOurEntries_spec (hs : List ClaudeHookEntry) :
    filterOurEntries hs =
      (hs.filter (fun h => ! containsStr h.command claudeHookMarker),
       hs.any (fun h => containsStr h.command claudeHookMarker)) := by
  induction hs with
  | nil => rfl
  | cons h t ih =>
    simp only [filterOurEntries, ih, List.filter_cons, List.any_cons]
    by_cases hc : containsStr h.command claudeHookMarker <;> simp [hc]

/-- C8: the Go stripping loop removes exactly the marked entries, keeps the
    remaining foreign entries untouched and in order, and drops a matcher
    group exactly when the removal empties a previously non-empty hooks
    list; the change flag is exactly "some entry carried the marker". -/
theorem removeOurHook_frame (ms : List ClaudeHookMatcher) :
    removeOurHook ms = (ms.filterMap stripGroupSpec, containsOurHook ms) := by
  induction ms with
  | nil => rfl
  | cons m t ih =>
    obtain ⟨mat, hks⟩ := m
    simp only [removeOurHook, filterOurEntries_spec, ih, List.filterMap_cons, stripGroupSpec,
      containsOurHook, List.any_cons]
    by_cases hf : hks.filter (fun h => ! containsStr h.command claudeHookMarker) = []
    · by_cases hh : hks = []
      · subst hh
        simp [containsOurHook]
      · simp [containsOurHook, hf, hh]
    · simp [containsOurHook, hf]

theorem consumeContinuation_le (st : AssignmentState) (ls : List Str) :
    (consumeContinuation st ls).2 ≤ ls.length := by
  induction ls generalizing st with
  | nil => simp [consumeContinuation]
  | cons l rest ih =>
    simp only [consumeContinuation]
    by_cases hn : needsContinuation st
    · rcases hcc : consumeContinuation (scanLine st l) rest with ⟨st', n⟩
      have := ih (scanLine st l)
      rw [hcc] at this
      simp only [hn, if_true, hcc, List.length_cons]
      omega
    · simp [hn]

theorem find_error_msg (ls : List Str) (m : String)
    (h : findTopLevelNotify ls = .error m) :
    m = "unterminated top-level notify assignment" := by
  induction ls with
  | nil => exact absurd h (by simp [findTopLevelNotify])
  | cons l rest ih =>
    simp only [findTopLevelNotify] at h
    by_cases hs : isNotifyAssignmentStart l
    · rw [if_pos hs] at h
      rcases hcc : consumeContinuation (scanLine initialAssignmentState (afterEquals l)) rest
        with ⟨st', n⟩
      rw [hcc] at h
      by_cases hn : needsContinuation st'
      · rw [if_pos hn] at h
        injection h with h'
        exact h'.symm
      · rw [if_neg hn] at h
        cases h
    · rw [if_neg hs] at h
      rcases hr : findTopLevelNotify rest with e' | ⟨s, e, found⟩
      · rw [hr] at h
        injection h with h'
        rw [h'] at hr
        exact ih hr
      · rw [hr] at h
        cases found <;> simp at h

theorem find_not_found (ls : List Str) :
    ∀ s e, findTopLevelNotify ls = .ok (s, e, false) →
    ∀ l ∈ ls, isNotifyAssignmentStart l = false := by
  induction ls with
  | nil => intro s e h l hl; cases hl
  | cons l rest ih =>
    intro s e h l' hl'
    simp only [findTopLevelNotify] at h
    by_cases hs : isNotifyAssignmentStart l
    · rw [if_pos hs] at h
      rcases hcc : consumeContinuation (scanLine initialAssignmentState (afterEquals l)) rest
        with ⟨st', n⟩
      rw [hcc] at h
      by_cases hn : needsContinuation st'
      · rw [if_pos hn] at h; cases h
      · rw [if_neg hn] at h; simp at h
    · rw [if_neg hs] at h
      rcases List.mem_cons.mp hl' with rfl | hmem
      · simpa using hs
      · rcases hr : findTopLevelNotify rest with e' | ⟨s', e'', found⟩
        · rw [hr] at h; cases h
        · rw [hr] at h
          cases found
          · exact ih s' e'' hr l' hmem
          · simp at h

theorem find_found_decomp (ls : List Str) (s e : Nat)
    (h : findTopLevelNotify ls = .ok (s, e, true)) :
    s < e ∧ e ≤ ls.length ∧
    (∀ i, i < s → isNotifyAssignmentStart (ls.getD i []) = false) ∧
    isNotifyAssignmentStart (ls.getD s []) = true ∧
    ∃ st', consumeContinuation (scanLine initialAssignmentState (afterEquals (ls.getD s [])))
        (ls.drop (s + 1)) = (st', e - s - 1) ∧ needsContinuation st' = false := by
  induction ls generalizing s e with
  | nil => cases h
  | cons l rest ih =>
    simp only [findTopLevelNotify] at h
    by_cases hs : isNotifyAssignmentStart l
    · rw [if_pos hs] at h
      rcases hcc : consumeContinuation (scanLine initialAssignmentState (afterEquals l)) rest
        with ⟨st', n⟩
      rw [hcc] at h
      by_cases hn : needsContinuation st'
      · rw [if_pos hn] at h; cases h
      · rw [if_neg hn] at h
        simp only [Except.ok.injEq, Prod.mk.injEq, and_true] at h
        obtain ⟨hs0, hne⟩ := h
        subst hs0
        subst hne
        have hle := consumeContinuation_le
          (scanLine initialAssignmentState (afterEquals l)) rest
        rw [hcc] at hle
        refine ⟨by omega, by simp; omega, ?_, by simpa using hs, st', ?_, by simpa using hn⟩
        · intro i hi; omega
        · simpa [Nat.add_sub_cancel_left] using hcc
    · rw [if_neg hs] at h
      rcases hr : findTopLevelNotify rest with e' | ⟨s', e'', found⟩
      · rw [hr] at h; cases h
      · rw [hr] at h
        cases found
        · simp at h
        · simp only [Except.ok.injEq, Prod.mk.injEq] at h
          obtain ⟨hs', he', -⟩ := h
          subst hs'; subst he'
          obtain ⟨ih1, ih2, ih3, ih4, st', ih5, ih6⟩ := ih s' e'' hr
          refine ⟨by omega, by simp; omega, ?_, ?_, st', ?_, ih6⟩
          · intro i hi
            cases i with
            | zero => simpa using hs
            | succ j => simpa using ih3 j (by omega)
          · simpa using ih4
          · simpa [Nat.succ_sub_one] using ih5

theorem stripBOM_recombine (s : Str) : (stripBOM s).1 ++ (stripBOM s).2 = s := by
  cases s with
  | nil => rfl
  | cons c rest =>
    simp only [stripBOM]
    by_cases h : c = bomChar
    · subst h; simp
    · simp [h]

theorem stripBOM_of_head_ne (s : Str) (h : s.head? ≠ some bomChar) : stripBOM s = ([], s) := by
  cases s with
  | nil => rfl
  | cons c rest =>
    simp only [stripBOM]
    rw [if_neg]
    intro hc
    exact h (by simp [hc])

theorem stripBOM_head_ne (s : Str) (h : (stripBOM s).1 = []) : s.head? ≠ some bomChar := by
  cases s with
  | nil => simp
  | cons c rest =>
    simp only [stripBOM] at h
    by_cases hc : c = bomChar
    · rw [if_pos hc] at h; cases h
    · simp [hc]

theorem stripBOM_bom_cons (s : Str) : stripBOM (bomChar :: s) = ([bomChar], s) := by
  simp [stripBOM]

/-- C3: when the first top-level notify assignment of the root region never
    closes before the root region ends (the located-and-scanned result is
    the error), both UpsertNotify and RemoveNotify fail closed: the
    unterminated error, empty content, changed = false. -/
theorem unterminated_fail_closed (x : Str) (cmd : List Str) (msg : String)
    (hcmd : cmd ≠ [])
    (hfind : findTopLevelNotify
        ((splitLines (stripBOM x).2).take (firstTableIndex (splitLines (stripBOM x).2))) =
      Except.error msg) :
    UpsertNotify x cmd = ([], false, some msg) ∧
    RemoveNotify x = ([], false, some msg) ∧
    msg = "unterminated top-level notify assignment" := by
  have hmsg := find_error_msg _ _ hfind
  have hlines : splitLines (stripBOM x).2 ≠ [] := by
    intro h0
    rw [h0] at hfind
    simp [findTopLevelNotify] at hfind
  refine ⟨?_, ?_, hmsg⟩
  · simp only [UpsertNotify, if_neg hcmd]
    rw [if_neg hlines, hfind]
  · simp only [RemoveNotify]
    rw [if_neg hlines, hfind]

theorem unterminated_fail_closed_witness :
    (findTopLevelNotify
        ((splitLines (stripBOM (lstr "notify = [\n")).2).take
          (firstTableIndex (splitLines (stripBOM (lstr "notify = [\n")).2))) =
      Except.error "unterminated top-level notify assignment") ∧
    UpsertNotify (lstr "notify = [\n") [lstr "a"] =
      ([], false, some "unterminated top-level notify assignment") ∧
    RemoveNotify (lstr "notify = [\n") =
      ([], false, some "unterminated top-level notify assignment") := by
  have h := unterminated_fail_closed (lstr "notify = [\n") [lstr "a"]
    "unterminated top-level notify assignment" (by decide) (by rfl)
  exact ⟨by rfl, h.1, h.2.1⟩

theorem joinLines_ne_nil (ls : List Str) (nl : Str) (h : ls ≠ []) :
    joinLines ls nl = intercalateStr nl ls ++ nl := by
  simp [joinLines, h]

theorem joinLines_nil_or_ends (ls : List Str) (nl : Str) :
    joinLines ls nl = [] ∨ ∃ pre, joinLines ls nl = pre ++ nl := by
  by_cases h : ls = []
  · left; simp [joinLines, h]
  · right
    rw [joinLines_ne_nil _ _ h]
    exact ⟨_, rfl⟩

/-- C5 counterexample: on the changed=false path the original content comes
    back byte-for-byte, so RemoveNotify of "x" (no trailing newline, no
    notify key) yields output whose last character is 'x' — it does not end
    with any line terminator, contradicting the claim for the
    changed=false path. -/
theorem output_terminator_cex :
    RemoveNotify (lstr "x") = (lstr "x", false, none) ∧
    (RemoveNotify (lstr "x")).1.getLast? = some 'x' := by decide

/-- C5 amended: every non-error output re-prepends the original BOM; a
    changed=false output is the BOM-stripped input unchanged (so it keeps
    whatever terminators the input had); a changed=true output is the join
    of the result lines under the detected newline convention — it ends
    with exactly the appended detected terminator whenever any lines
    remain, and only a RemoveNotify that deletes every line may produce an
    empty (terminator-free) remainder. -/
theorem output_format_amended (x : Str) (cmd : List Str) :
    (∀ out ch, UpsertNotify x cmd = (out, ch, none) →
      ∃ rest, out = (stripBOM x).1 ++ rest ∧
        (ch = false → rest = (stripBOM x).2) ∧
        (ch = true → ∃ ls, ls ≠ [] ∧ rest = joinLines ls (detectNewline (stripBOM x).2) ∧
          ∃ pre, rest = pre ++ detectNewline (stripBOM x).2)) ∧
    (∀ out ch, RemoveNotify x = (out, ch, none) →
      ∃ rest, out = (stripBOM x).1 ++ rest ∧
        (ch = false → rest = (stripBOM x).2) ∧
        (ch = true → ∃ ls, rest = joinLines ls (detectNewline (stripBOM x).2) ∧
          (rest = [] ∨ ∃ pre, rest = pre ++ detectNewline (stripBOM x).2))) := by
  constructor
  · intro out ch h
    simp only [UpsertNotify] at h
    split at h
    · simp at h
    split at h
    · simp only [Prod.mk.injEq] at h
      obtain ⟨hout, hch, -⟩ := h
      subst hout
      subst hch
      refine ⟨renderNotifyLine cmd ++ detectNewline (stripBOM x).2, by simp, by simp, ?_⟩
      exact fun _ => ⟨[renderNotifyLine cmd], by simp, by simp [joinLines, intercalateStr],
        renderNotifyLine cmd, rfl⟩
    split at h
    · simp at h
    split at h
    · split at h
      · simp only [Prod.mk.injEq] at h
        obtain ⟨hout, hch, -⟩ := h
        subst hout
        subst hch
        exact ⟨(stripBOM x).2, rfl, fun _ => rfl, by simp⟩
      · simp only [Prod.mk.injEq] at h
        obtain ⟨hout, hch, -⟩ := h
        subst hout
        subst hch
        refine ⟨_, rfl, by simp, fun _ => ⟨_, by simp, rfl, ?_⟩⟩
        rw [joinLines_ne_nil _ _ (by simp)]
        exact ⟨_, rfl⟩
    · split at h
      · simp only [Prod.mk.injEq] at h
        obtain ⟨hout, hch, -⟩ := h
        subst hout
        subst hch
        refine ⟨_, rfl, by simp, fun _ => ⟨_, by simp, rfl, ?_⟩⟩
        rw [joinLines_ne_nil _ _ (by simp)]
        exact ⟨_, rfl⟩
      · simp only [Prod.mk.injEq] at h
        obtain ⟨hout, hch, -⟩ := h
        subst hout
        subst hch
        refine ⟨_, rfl, by simp, fun _ => ⟨_, by simp, rfl, ?_⟩⟩
        rw [joinLines_ne_nil _ _ (by simp)]
        exact ⟨_, rfl⟩
  · intro out ch h
    simp only [RemoveNotify] at h
    split at h
    · simp only [Prod.mk.injEq] at h
      obtain ⟨hout, hch, -⟩ := h
      subst hout
      subst hch
      exact ⟨(stripBOM x).2, rfl, fun _ => rfl, by simp⟩
    split at h
    · simp at h
    split at h
    · simp only [Prod.mk.injEq] at h
      obtain ⟨hout, hch, -⟩ := h
      subst hout
      subst hch
      exact ⟨_, rfl, by simp, fun _ => ⟨_, rfl, joinLines_nil_or_ends _ _⟩⟩
    · simp only [Prod.mk.injEq] at h
      obtain ⟨hout, hch, -⟩ := h
      subst hout
      subst hch
      exact ⟨(stripBOM x).2, rfl, fun _ => rfl, by simp⟩

theorem output_format_amended_witness :
    ∃ rest, (lstr "notify = [\"c\"]\n") = (stripBOM (lstr "")).1 ++ rest ∧
      (true = false → rest = (stripBOM (lstr "")).2) ∧
      (true = true → ∃ ls, ls ≠ [] ∧
        rest = joinLines ls (detectNewline (stripBOM (lstr "")).2) ∧
        ∃ pre, rest = pre ++ detectNewline (stripBOM (lstr "")).2) :=
  (output_format_amended (lstr "") [lstr "c"]).1 (lstr "notify = [\"c\"]\n") true (by decide)

/-- C2 counterexample: an existing assignment on a single line with leading
    whitespace is reported unchanged (changed=false, original bytes
    returned) although that line is not byte-identical to the freshly
    rendered replacement: the source compares after TrimSpace. -/
theorem upsert_byte_identical_cex :
    UpsertNotify (lstr "  notify = [\"a\"]\n") [lstr "a"] =
      (lstr "  notify = [\"a\"]\n", false, none) ∧
    (splitLines (lstr "  notify = [\"a\"]\n")).getD 0 [] ≠ renderNotifyLine [lstr "a"] := by
  decide

/-- C2 amended: when a complete top-level notify assignment is found,
    UpsertNotify returns the original content untouched with changed=false
    iff the matched span is a single line whose whitespace-trimmed text is
    byte-identical to the rendered replacement line; otherwise it splices
    the full span out, inserts the rendered single-line assignment in its
    place, and reports changed=true. -/
theorem upsert_found_replacement (x : Str) (cmd : List Str) (s e : Nat)
    (hcmd : cmd ≠ [])
    (hfind : findTopLevelNotify ((splitLines (stripBOM x).2).take
        (firstTableIndex (splitLines (stripBOM x).2))) = Except.ok (s, e, true)) :
    (UpsertNotify x cmd = (x, false, none) ↔
      (e - s = 1 ∧ trimSpace ((splitLines (stripBOM x).2).getD s []) = renderNotifyLine cmd)) ∧
    (¬ (e - s = 1 ∧ trimSpace ((splitLines (stripBOM x).2).getD s []) = renderNotifyLine cmd) →
      UpsertNotify x cmd = ((stripBOM x).1 ++
        joinLines ((splitLines (stripBOM x).2).take s ++
          renderNotifyLine cmd :: (splitLines (stripBOM x).2).drop e)
          (detectNewline (stripBOM x).2), true, none)) := by
  have hlines : splitLines (stripBOM x).2 ≠ [] := by
    intro h0
    rw [h0] at hfind
    simp [findTopLevelNotify] at hfind
  have hcomp : UpsertNotify x cmd =
      (if e - s = 1 ∧ trimSpace ((splitLines (stripBOM x).2).getD s []) = renderNotifyLine cmd
       then ((stripBOM x).1 ++ (stripBOM x).2, false, none)
       else ((stripBOM x).1 ++
          joinLines ((splitLines (stripBOM x).2).take s ++
            renderNotifyLine cmd :: (splitLines (stripBOM x).2).drop e)
            (detectNewline (stripBOM x).2), true, none)) := by
    simp only [UpsertNotify, if_neg hcmd, if_neg hlines, hfind, if_true]
  by_cases hid : e - s = 1 ∧ trimSpace ((splitLines (stripBOM x).2).getD s []) =
      renderNotifyLine cmd
  · rw [hcomp, if_pos hid]
    refine ⟨⟨fun _ => hid, fun _ => ?_⟩, fun hcontra => absurd hid hcontra⟩
    rw [stripBOM_recombine]
  · rw [hcomp, if_neg hid]
    refine ⟨⟨fun heq => ?_, fun hid' => absurd hid' hid⟩, fun _ => rfl⟩
    have hsnd := congrArg (fun t => t.2.1) heq
    simp at hsnd

theorem upsert_found_replacement_witness :
    UpsertNotify (lstr "notify = [\"a\"]\n") [lstr "a"] =
      (lstr "notify = [\"a\"]\n", false, none) :=
  (upsert_found_replacement (lstr "notify = [\"a\"]\n") [lstr "a"] 0 1 (by decide)
    (by rfl)).1.mpr (by decide)

theorem lstr_notify_key : lstr "notify = [" = ['n', 'o', 't', 'i', 'f', 'y', ' ', '=', ' ', '['] :=
  rfl

theorem afterEquals_render (cmd : List Str) :
    afterEquals (renderNotifyLine cmd) =
      ' ' :: '[' :: (intercalateStr (lstr ", ") (cmd.map quoteTOMLString) ++ [']']) := rfl

theorem isStart_render (cmd : List Str) :
    isNotifyAssignmentStart (renderNotifyLine cmd) = true := rfl

theorem render_head (cmd : List Str) : (renderNotifyLine cmd).head? = some 'n' := rfl

theorem scanLine_quoteChar (c : Char) (d : Int) (tail : Str) :
    scanLine ⟨true, false, d⟩ (quoteChar c ++ tail) =
    scanLine ⟨true, false, d⟩ tail := by
  by_cases h1 : c = '\\'
  · subst h1; simp [quoteChar, scanLine]
  by_cases h2 : c = '"'
  · subst h2; simp [quoteChar, scanLine]
  by_cases h3 : c = '\t'
  · subst h3; simp [quoteChar, scanLine]
  by_cases h4 : c = '\n'
  · subst h4; simp [quoteChar, scanLine]
  by_cases h5 : c = '\r'
  · subst h5; simp [quoteChar, scanLine]
  · simp [quoteChar, h1, h2, h3, h4, h5, scanLine]

theorem scanLine_quote_body (v : Str) (d : Int) (tail : Str) :
    scanLine ⟨true, false, d⟩ (v.flatMap quoteChar ++ tail) =
    scanLine ⟨true, false, d⟩ tail := by
  induction v with
  | nil => rfl
  | cons c cv ih =>
    rw [show ((c :: cv).flatMap quoteChar ++ tail) =
        quoteChar c ++ (cv.flatMap quoteChar ++ tail) from by simp]
    rw [scanLine_quoteChar, ih]

theorem scanLine_quoted (v : Str) (d : Int) (tail : Str) :
    scanLine ⟨false, false, d⟩ (quoteTOMLString v ++ tail) =
    scanLine ⟨false, false, d⟩ tail := by
  have hshape : quoteTOMLString v ++ tail =
      '"' :: (v.flatMap quoteChar ++ ('"' :: tail)) := by
    simp [quoteTOMLString]
  rw [hshape]
  have hopen : scanLine (⟨false, false, d⟩ : AssignmentState)
      ('"' :: (v.flatMap quoteChar ++ ('"' :: tail))) =
      scanLine ⟨true, false, d⟩ (v.flatMap quoteChar ++ ('"' :: tail)) := by
    simp [scanLine]
  rw [hopen, scanLine_quote_body]
  simp [scanLine]

theorem scanLine_parts (parts : List Str) (d : Int) (tail : Str) :
    scanLine ⟨false, false, d⟩ (intercalateStr (lstr ", ") (parts.map quoteTOMLString) ++ tail) =
    scanLine ⟨false, false, d⟩ tail := by
  induction parts generalizing tail with
  | nil => rfl
  | cons p ps ih =>
    cases ps with
    | nil => simpa [intercalateStr] using scanLine_quoted p d tail
    | cons q qs =>
      have hshape : intercalateStr (lstr ", ") ((p :: q :: qs).map quoteTOMLString) ++ tail =
          quoteTOMLString p ++ (',' :: ' ' ::
            (intercalateStr (lstr ", ") ((q :: qs).map quoteTOMLString) ++ tail)) := by
        simp [intercalateStr, lstr]
      rw [hshape, scanLine_quoted]
      have hsep : scanLine (⟨false, false, d⟩ : AssignmentState)
          (',' :: ' ' :: (intercalateStr (lstr ", ") ((q :: qs).map quoteTOMLString) ++ tail)) =
          scanLine ⟨false, false, d⟩
            (intercalateStr (lstr ", ") ((q :: qs).map quoteTOMLString) ++ tail) := by
        simp [scanLine]
      rw [hsep, ih]

theorem scanLine_render_closed (cmd : List Str) :
    scanLine initialAssignmentState (afterEquals (renderNotifyLine cmd)) =
    initialAssignmentState := by
  rw [afterEquals_render]
  have hopen : scanLine initialAssignmentState
      (' ' :: '[' :: (intercalateStr (lstr ", ") (cmd.map quoteTOMLString) ++ [']'])) =
      scanLine ⟨false, false, 1⟩
        (intercalateStr (lstr ", ") (cmd.map quoteTOMLString) ++ [']']) := by
    simp [scanLine, initialAssignmentState]
  rw [hopen, scanLine_parts]
  simp [scanLine, initialAssignmentState]

theorem consumeContinuation_done (st : AssignmentState) (ls : List Str)
    (h : needsContinuation st = false) : consumeContinuation st ls = (st, 0) := by
  cases ls with
  | nil => rfl
  | cons l rest => simp [consumeContinuation, h]

theorem find_cons_render (cmd : List Str) (rest : List Str) :
    findTopLevelNotify (renderNotifyLine cmd :: rest) = Except.ok (0, 1, true) := by
  have hinit : needsContinuation initialAssignmentState = false := rfl
  simp only [findTopLevelNotify, isStart_render, if_true, scanLine_render_closed,
    consumeContinuation_done _ _ hinit, hinit]
  rfl

theorem find_append_not_start (pre rest : List Str) (s e : Nat)
    (hpre : ∀ l ∈ pre, isNotifyAssignmentStart l = false)
    (hr : findTopLevelNotify rest = Except.ok (s, e, true)) :
    findTopLevelNotify (pre ++ rest) =
      Except.ok (s + pre.length, e + pre.length, true) := by
  induction pre with
  | nil => simpa using hr
  | cons p ps ih =>
    have hp : isNotifyAssignmentStart p = false := hpre p (by simp)
    have hps : ∀ l ∈ ps, isNotifyAssignmentStart l = false :=
      fun l hl => hpre l (by simp [hl])
    simp only [List.cons_append, findTopLevelNotify, List.append_eq]
    rw [if_neg (by simp [hp])]
    rw [ih hps]
    simp only [List.length_cons]
    rw [show s + (ps.length + 1) = s + ps.length + 1 from by omega,
        show e + (ps.length + 1) = e + ps.length + 1 from by omega]

theorem dropWhile_append_ne_nil (p : Char → Bool) (a b : Str) (h : a.dropWhile p ≠ []) :
    (a ++ b).dropWhile p = a.dropWhile p ++ b := by
  induction a with
  | nil => simp at h
  | cons c rest ih =>
    by_cases hc : p c
    · rw [List.dropWhile_cons, if_pos hc] at h
      rw [List.cons_append, List.dropWhile_cons, if_pos hc, List.dropWhile_cons, if_pos hc]
      exact ih h
    · rw [List.cons_append, List.dropWhile_cons, if_neg hc, List.dropWhile_cons, if_neg hc,
        List.cons_append]

theorem dropWhile_append_nil (p : Char → Bool) (a b : Str) (h : a.dropWhile p = []) :
    (a ++ b).dropWhile p = b.dropWhile p := by
  induction a with
  | nil => simp
  | cons c rest ih =>
    by_cases hc : p c
    · rw [List.dropWhile_cons, if_pos hc] at h
      rw [List.cons_append, List.dropWhile_cons, if_pos hc]
      exact ih h
    · rw [List.dropWhile_cons, if_neg hc] at h
      cases h

theorem stripCR_cases (s : Str) : stripCR s = s ∨ s = stripCR s ++ ['\r'] := by
  induction s with
  | nil => left; rfl
  | cons c rest ih =>
    cases rest with
    | nil =>
      by_cases hc : c = '\r'
      · subst hc; right; rfl
      · left
        simp [stripCR, hc]
    | cons d rest' =>
      have hred : stripCR (c :: d :: rest') = c :: stripCR (d :: rest') := by simp [stripCR]
      rcases ih with h | h
      · left; rw [hred, h]
      · right
        rw [hred]
        calc c :: d :: rest' = c :: (stripCR (d :: rest') ++ ['\r']) := by rw [← h]
        _ = (c :: stripCR (d :: rest')) ++ ['\r'] := by simp

theorem stripCR_append_ne_cr (x : Str) (c : Char) (hc : c ≠ '\r') :
    stripCR (x ++ [c]) = x ++ [c] := by
  rcases stripCR_cases (x ++ [c]) with h | h
  · exact h
  · exfalso
    have h1 : (x ++ [c]).getLast? = some c := List.getLast?_concat _
    have h2 : (stripCR (x ++ [c]) ++ ['\r']).getLast? = some '\r' := List.getLast?_concat _
    rw [← h] at h2
    rw [h1] at h2
    exact hc (Option.some.injEq _ _ ▸ h2)

theorem stripCR_render (cmd : List Str) :
    stripCR (renderNotifyLine cmd) = renderNotifyLine cmd := by
  have hform : renderNotifyLine cmd =
      (lstr "notify = [" ++ intercalateStr (lstr ", ") (cmd.map quoteTOMLString)) ++ [']'] := by
    simp [renderNotifyLine]
  rw [hform]
  exact stripCR_append_ne_cr _ _ (by decide)

theorem mem_stripCR (s : Str) (c : Char) (h : c ∈ stripCR s) : c ∈ s := by
  rcases stripCR_cases s with h1 | h1
  · rwa [h1] at h
  · rw [h1]
    exact List.mem_append_left _ h

theorem startsWith_single_iff (t : Str) (c : Char) :
    startsWithStr t [c] = true ↔ t.head? = some c := by
  cases t with
  | nil => simp [startsWithStr]
  | cons d ts =>
    simp only [startsWithStr, List.head?_cons, Option.some.injEq]
    constructor
    · intro h
      have := (Bool.and_eq_true _ _).mp h
      simpa using this.1
    · intro h
      subst h
      simp [startsWithStr]

theorem startsWith_single_append (t x : Str) (c : Char) (h : t ≠ []) :
    startsWithStr (t ++ x) [c] = startsWithStr t [c] := by
  cases t with
  | nil => exact absurd rfl h
  | cons d ts =>
    simp only [List.cons_append, startsWithStr]

theorem trimRightWS_append_space (s : Str) (c : Char) (h : isGoSpace c = true) :
    trimRightWS (s ++ [c]) = trimRightWS s := by
  unfold trimRightWS trimLeftWS
  rw [List.reverse_append]
  simp [List.dropWhile_cons, h]

theorem trimSpace_append_cr (m : Str) : trimSpace (m ++ ['\r']) = trimSpace m := by
  unfold trimSpace
  by_cases hL : trimLeftWS m = []
  · have h1 : trimLeftWS (m ++ ['\r']) = trimLeftWS ['\r'] := by
      unfold trimLeftWS at hL ⊢
      exact dropWhile_append_nil _ _ _ hL
    rw [h1, hL]
    rfl
  · have h1 : trimLeftWS (m ++ ['\r']) = trimLeftWS m ++ ['\r'] := by
      unfold trimLeftWS at hL ⊢
      exact dropWhile_append_ne_nil _ _ _ hL
    rw [h1]
    exact trimRightWS_append_space _ _ (by decide)

theorem trimSpace_stripCR (s : Str) : trimSpace (stripCR s) = trimSpace s := by
  rcases stripCR_cases s with h | h
  · rw [h]
  · conv_rhs => rw [h]
    rw [trimSpace_append_cr]

theorem keyLength_le (s : Str) : keyLength s ≤ s.length := by
  induction s with
  | nil => simp [keyLength]
  | cons c rest ih =>
    simp only [keyLength, List.length_cons]
    split_ifs <;> omega

theorem keyLength_append_lt (a b : Str) (h : keyLength a < a.length) :
    keyLength (a ++ b) = keyLength a := by
  induction a with
  | nil => simp [keyLength] at h
  | cons c rest ih =>
    simp only [keyLength, List.cons_append, List.length_cons, List.append_eq] at h ⊢
    split_ifs at h ⊢ <;> first
      | rfl
      | (rw [ih (by omega)])

theorem isStart_iff (line : Str) :
    isNotifyAssignmentStart line = true ↔
      (trimLeftCut line ≠ [] ∧ startsWithStr (trimLeftCut line) ['#'] = false ∧
       keyLength (trimLeftCut line) ≠ 0 ∧
       (trimLeftCut line).take (keyLength (trimLeftCut line)) = lstr "notify" ∧
       startsWithStr (trimLeftCut ((trimLeftCut line).drop (keyLength (trimLeftCut line))))
         ['='] = true) := by
  simp only [isNotifyAssignmentStart]
  split_ifs with h1 h2 h3 h4
  · simp [h1]
  · simp [h1, h2]
  · simp [h1, h2, h3]
  · simp [h1, h2, h3, h4]
  · simp [h1, h2, h3, h4]

theorem isStart_append_cr (m : Str) (h : isNotifyAssignmentStart m = true) :
    isNotifyAssignmentStart (m ++ ['\r']) = true := by
  rw [isStart_iff] at h
  obtain ⟨h1, h2, h3, h4, h5⟩ := h
  rw [isStart_iff]
  have htlc : trimLeftCut (m ++ ['\r']) = trimLeftCut m ++ ['\r'] :=
    dropWhile_append_ne_nil _ _ _ h1
  rw [htlc]
  have hklt : keyLength (trimLeftCut m) < (trimLeftCut m).length := by
    rcases Nat.lt_or_ge (keyLength (trimLeftCut m)) (trimLeftCut m).length with hlt | hge
    · exact hlt
    · exfalso
      have heq : keyLength (trimLeftCut m) = (trimLeftCut m).length :=
        le_antisymm (keyLength_le _) hge
      rw [heq, List.drop_length] at h5
      simp [trimLeftCut, startsWithStr] at h5
  have hkl : keyLength (trimLeftCut m ++ ['\r']) = keyLength (trimLeftCut m) :=
    keyLength_append_lt _ _ hklt
  refine ⟨by simp, ?_, ?_, ?_, ?_⟩
  · rw [startsWith_single_append _ _ _ h1]; exact h2
  · rw [hkl]; exact h3
  · rw [hkl, List.take_append_of_le_length (le_of_lt hklt)]
    exact h4
  · rw [hkl, List.drop_append_of_le_length (le_of_lt hklt)]
    have hne : trimLeftCut ((trimLeftCut m).drop (keyLength (trimLeftCut m))) ≠ [] := by
      intro h0
      rw [h0] at h5
      simp [startsWithStr] at h5
    have hsplit : trimLeftCut ((trimLeftCut m).drop (keyLength (trimLeftCut m)) ++ ['\r']) =
        trimLeftCut ((trimLeftCut m).drop (keyLength (trimLeftCut m))) ++ ['\r'] :=
      dropWhile_append_ne_nil _ _ _ hne
    rw [hsplit, startsWith_single_append _ _ _ hne]
    exact h5

theorem isStart_stripCR (s : Str) (h : isNotifyAssignmentStart (stripCR s) = true) :
    isNotifyAssignmentStart s = true := by
  rcases stripCR_cases s with h1 | h1
  · rwa [h1] at h
  · rw [h1]
    exact isStart_append_cr _ h

theorem not_isStart_stripCR (s : Str) (h : isNotifyAssignmentStart s = false) :
    isNotifyAssignmentStart (stripCR s) = false := by
  cases hb : isNotifyAssignmentStart (stripCR s)
  · rfl
  · rw [isStart_stripCR s hb] at h
    cases h

theorem trimSpace_render (cmd : List Str) :
    trimSpace (renderNotifyLine cmd) = renderNotifyLine cmd := by
  have hform1 : renderNotifyLine cmd =
      'n' :: (lstr "otify = [" ++ intercalateStr (lstr ", ") (cmd.map quoteTOMLString) ++ [']']) := by
    rfl
  have hform2 : renderNotifyLine cmd =
      (lstr "notify = [" ++ intercalateStr (lstr ", ") (cmd.map quoteTOMLString)) ++ [']'] := by
    simp [renderNotifyLine]
  have h1 : trimLeftWS (renderNotifyLine cmd) = renderNotifyLine cmd := by
    conv_lhs => rw [hform1]
    unfold trimLeftWS
    rw [List.dropWhile_cons, if_neg (by decide)]
    exact hform1.symm
  have h2 : trimRightWS (renderNotifyLine cmd) = renderNotifyLine cmd := by
    conv_lhs => rw [hform2]
    unfold trimRightWS trimLeftWS
    have hrev : ((lstr "notify = [" ++
        intercalateStr (lstr ", ") (cmd.map quoteTOMLString)) ++ [']']).reverse =
        ']' :: (lstr "notify = [" ++
          intercalateStr (lstr ", ") (cmd.map quoteTOMLString)).reverse := by
      simp
    rw [hrev, List.dropWhile_cons, if_neg (by decide)]
    rw [List.reverse_cons, List.reverse_reverse]
    exact hform2.symm
  unfold trimSpace
  rw [h1, h2]

theorem render_not_table (cmd : List Str) :
    startsWithStr (trimSpace (renderNotifyLine cmd)) ['['] = false := by
  rw [trimSpace_render]
  cases hb : startsWithStr (renderNotifyLine cmd) ['[']
  · rfl
  · rw [startsWith_single_iff, render_head] at hb
    simp at hb

theorem firstTableIndex_cons_table (l : Str) (rest : List Str)
    (h : startsWithStr (trimSpace l) ['['] = true) :
    firstTableIndex (l :: rest) = 0 := by
  have hne : trimSpace l ≠ [] := by
    intro h0
    rw [h0] at h
    simp [startsWithStr] at h
  have hh : startsWithStr (trimSpace l) ['#'] = false := by
    cases hb : startsWithStr (trimSpace l) ['#']
    · rfl
    · rw [startsWith_single_iff] at hb h
      rw [h] at hb
      simp at hb
  simp only [firstTableIndex]
  rw [if_neg hne, if_neg (by simp [hh]), if_pos h]

theorem firstTableIndex_cons_not (l : Str) (rest : List Str)
    (h : startsWithStr (trimSpace l) ['['] = false) :
    firstTableIndex (l :: rest) = 1 + firstTableIndex rest := by
  simp only [firstTableIndex]
  split_ifs with h1 h2 h3
  · rfl
  · rfl
  · rw [h3] at h; cases h
  · rfl

theorem firstTableIndex_append_not (pre rest : List Str)
    (h : ∀ l ∈ pre, startsWithStr (trimSpace l) ['['] = false) :
    firstTableIndex (pre ++ rest) = pre.length + firstTableIndex rest := by
  induction pre with
  | nil => simp
  | cons p ps ih =>
    rw [List.cons_append, firstTableIndex_cons_not _ _ (h p (by simp))]
    rw [ih (fun l hl => h l (by simp [hl]))]
    simp [List.length_cons]
    omega

theorem firstTableIndex_lt_not_table (ls : List Str) :
    ∀ i, i < firstTableIndex ls → startsWithStr (trimSpace (ls.getD i [])) ['['] = false := by
  induction ls with
  | nil => intro i hi; simp [firstTableIndex] at hi
  | cons l rest ih =>
    intro i hi
    cases htab : startsWithStr (trimSpace l) ['[']
    · rw [firstTableIndex_cons_not _ _ htab] at hi
      cases i with
      | zero => simpa using htab
      | succ j => exact ih j (by omega)
    · rw [firstTableIndex_cons_table _ _ htab] at hi
      omega

theorem firstTableIndex_render_cons (cmd : List Str) (rest : List Str) :
    firstTableIndex (renderNotifyLine cmd :: rest) = 1 + firstTableIndex rest :=
  firstTableIndex_cons_not _ _ (render_not_table cmd)

theorem firstTableIndex_le_length (ls : List Str) : firstTableIndex ls ≤ ls.length := by
  induction ls with
  | nil => simp [firstTableIndex]
  | cons l rest ih =>
    cases htab : startsWithStr (trimSpace l) ['[']
    · rw [firstTableIndex_cons_not _ _ htab]
      simp only [List.length_cons]
      omega
    · rw [firstTableIndex_cons_table _ _ htab]
      simp

theorem splitNL_cons_of_ne (c : Char) (r : Str) (l : Str) (ls : List Str)
    (hc : c ≠ '\n') (hr : splitNL r = l :: ls) :
    splitNL (c :: r) = (c :: l) :: ls := by
  simp [splitNL, hc, hr]

theorem splitNL_ne_nil (s : Str) : splitNL s ≠ [] := by
  induction s with
  | nil => simp [splitNL]
  | cons c rest ih =>
    by_cases hc : c = '\n'
    · subst hc; simp [splitNL]
    · rcases hr : splitNL rest with _ | ⟨l, ls⟩
      · exact absurd hr ih
      · rw [splitNL_cons_of_ne c rest l ls hc hr]
        simp

theorem mem_splitNL_no_nl (s : Str) : ∀ l ∈ splitNL s, '\n' ∉ l := by
  induction s with
  | nil => intro l hl; simp [splitNL] at hl; simp [hl]
  | cons c rest ih =>
    intro l hl
    by_cases hc : c = '\n'
    · subst hc
      simp only [splitNL] at hl
      rcases List.mem_cons.mp hl with rfl | hmem
      · simp
      · exact ih l hmem
    · rcases hr : splitNL rest with _ | ⟨m, ms⟩
      · exact absurd hr (splitNL_ne_nil rest)
      · rw [splitNL_cons_of_ne c rest m ms hc hr] at hl
        rcases List.mem_cons.mp hl with rfl | hmem
        · intro hmem2
          rcases List.mem_cons.mp hmem2 with h0 | h0
          · exact hc h0.symm
          · exact ih m (by simp [hr]) h0
        · exact ih l (by simp [hr, hmem])

theorem splitNL_no_nl_self (s : Str) (h : '\n' ∉ s) : splitNL s = [s] := by
  induction s with
  | nil => rfl
  | cons c rest ih =>
    have hc : c ≠ '\n' := fun h0 => h (by simp [h0])
    have hrest : '\n' ∉ rest := fun h0 => h (by simp [h0])
    rw [splitNL_cons_of_ne c rest rest [] hc (ih hrest)]

theorem splitNL_append (a t : Str) (h : '\n' ∉ a) :
    splitNL (a ++ '\n' :: t) = a :: splitNL t := by
  induction a with
  | nil => simp [splitNL]
  | cons c rest ih =>
    have hc : c ≠ '\n' := fun h0 => h (by simp [h0])
    have hrest : '\n' ∉ rest := fun h0 => h (by simp [h0])
    rcases hr : splitNL (rest ++ '\n' :: t) with _ | ⟨m, ms⟩
    · exact absurd hr (splitNL_ne_nil _)
    · rw [List.cons_append, splitNL_cons_of_ne c _ m ms hc hr]
      rw [ih hrest] at hr
      obtain ⟨rfl, rfl⟩ : rest = m ∧ splitNL t = ms := by
        have h1 := (List.cons.injEq _ _ _ _).mp hr
        exact ⟨h1.1, h1.2⟩
      rfl

theorem replaceCRLF_crlf (r : Str) : replaceCRLF ('\r' :: '\n' :: r) = '\n' :: replaceCRLF r :=
  rfl

theorem replaceCRLF_cons_ne (c : Char) (r : Str) (hc : c ≠ '\r') :
    replaceCRLF (c :: r) = c :: replaceCRLF r := by
  cases r with
  | nil => simp [replaceCRLF]
  | cons d r' => simp [replaceCRLF, hc]

theorem replaceCRLF_cr_cons_ne (d : Char) (r : Str) (hd : d ≠ '\n') :
    replaceCRLF ('\r' :: d :: r) = '\r' :: replaceCRLF (d :: r) := by
  simp [replaceCRLF, hd]

theorem replaceCRLF_line_nl (l t : Str) (h : '\n' ∉ l) :
    replaceCRLF (l ++ '\n' :: t) = stripCR l ++ '\n' :: replaceCRLF t := by
  induction l with
  | nil =>
    rw [List.nil_append, replaceCRLF_cons_ne '\n' t (by decide)]
    rfl
  | cons c rest ih =>
    have hc : c ≠ '\n' := fun h0 => h (by simp [h0])
    have hrest : '\n' ∉ rest := fun h0 => h (by simp [h0])
    cases rest with
    | nil =>
      by_cases hcr : c = '\r'
      · subst hcr
        show replaceCRLF ('\r' :: '\n' :: t) = stripCR ['\r'] ++ '\n' :: replaceCRLF t
        rw [replaceCRLF_crlf]
        rfl
      · show replaceCRLF (c :: '\n' :: t) = stripCR [c] ++ '\n' :: replaceCRLF t
        rw [replaceCRLF_cons_ne c _ hcr, replaceCRLF_cons_ne '\n' t (by decide)]
        simp [stripCR, hcr]
    | cons d rest' =>
      have hd : d ≠ '\n' := fun h0 => hrest (by simp [h0])
      have hred : stripCR (c :: d :: rest') = c :: stripCR (d :: rest') := by simp [stripCR]
      have hstep : replaceCRLF ((c :: d :: rest') ++ '\n' :: t) =
          c :: replaceCRLF ((d :: rest') ++ '\n' :: t) := by
        by_cases hcr : c = '\r'
        · subst hcr
          exact replaceCRLF_cr_cons_ne d (rest' ++ '\n' :: t) hd
        · exact replaceCRLF_cons_ne c _ hcr
      rw [hstep, ih hrest, hred, List.cons_append]

theorem replaceCRLF_line_crlf (l t : Str) (h : '\n' ∉ l) :
    replaceCRLF (l ++ '\r' :: '\n' :: t) = l ++ '\n' :: replaceCRLF t := by
  induction l with
  | nil => exact replaceCRLF_crlf t
  | cons c rest ih =>
    have hc : c ≠ '\n' := fun h0 => h (by simp [h0])
    have hrest : '\n' ∉ rest := fun h0 => h (by simp [h0])
    have hstep : replaceCRLF ((c :: rest) ++ '\r' :: '\n' :: t) =
        c :: replaceCRLF (rest ++ '\r' :: '\n' :: t) := by
      cases rest with
      | nil =>
        by_cases hcr : c = '\r'
        · subst hcr
          exact replaceCRLF_cr_cons_ne '\r' ('\n' :: t) (by decide)
        · exact replaceCRLF_cons_ne c _ hcr
      | cons d rest' =>
        have hd : d ≠ '\n' := fun h0 => hrest (by simp [h0])
        by_cases hcr : c = '\r'
        · subst hcr
          exact replaceCRLF_cr_cons_ne d (rest' ++ '\r' :: '\n' :: t) hd
        · exact replaceCRLF_cons_ne c _ hcr
    rw [hstep, ih hrest, List.cons_append]

theorem trimNLSuffix_append_nl (s : Str) : trimNLSuffix (s ++ ['\n']) = s := by
  induction s with
  | nil => rfl
  | cons c rest ih =>
    cases rest with
    | nil => simp [trimNLSuffix]
    | cons d rest' =>
      have hred : trimNLSuffix (c :: ((d :: rest') ++ ['\n'])) =
          c :: trimNLSuffix ((d :: rest') ++ ['\n']) := by
        simp [trimNLSuffix]
      rw [List.cons_append, hred, ih]

theorem intercalateStr_cons₂ (sep : Str) (l m : Str) (rest : List Str) :
    intercalateStr sep (l :: m :: rest) = l ++ sep ++ intercalateStr sep (m :: rest) := rfl

theorem replaceCRLF_intercalate_nl (ls : List Str) (t : Str) (hne : ls ≠ [])
    (hnl : ∀ l ∈ ls, '\n' ∉ l) :
    replaceCRLF (intercalateStr ['\n'] ls ++ '\n' :: t) =
      intercalateStr ['\n'] (ls.map stripCR) ++ '\n' :: replaceCRLF t := by
  induction ls generalizing t with
  | nil => exact absurd rfl hne
  | cons l rest ih =>
    cases rest with
    | nil =>
      show replaceCRLF (l ++ '\n' :: t) = stripCR l ++ '\n' :: replaceCRLF t
      exact replaceCRLF_line_nl l t (hnl l (by simp))
    | cons m rest' =>
      rw [intercalateStr_cons₂]
      have hshape : (l ++ ['\n'] ++ intercalateStr ['\n'] (m :: rest')) ++ '\n' :: t =
          l ++ '\n' :: (intercalateStr ['\n'] (m :: rest') ++ '\n' :: t) := by
        simp
      rw [hshape, replaceCRLF_line_nl l _ (hnl l (by simp)),
        ih _ (by simp) (fun x hx => hnl x (by simp [hx]))]
      simp [intercalateStr_cons₂]

theorem replaceCRLF_intercalate_crlf (ls : List Str) (t : Str) (hne : ls ≠ [])
    (hnl : ∀ l ∈ ls, '\n' ∉ l) :
    replaceCRLF (intercalateStr ['\r', '\n'] ls ++ '\r' :: '\n' :: t) =
      intercalateStr ['\n'] ls ++ '\n' :: replaceCRLF t := by
  induction ls generalizing t with
  | nil => exact absurd rfl hne
  | cons l rest ih =>
    cases rest with
    | nil =>
      show replaceCRLF (l ++ '\r' :: '\n' :: t) = l ++ '\n' :: replaceCRLF t
      exact replaceCRLF_line_crlf l t (hnl l (by simp))
    | cons m rest' =>
      rw [intercalateStr_cons₂]
      have hshape : (l ++ ['\r', '\n'] ++ intercalateStr ['\r', '\n'] (m :: rest')) ++
          '\r' :: '\n' :: t =
          l ++ '\r' :: '\n' :: (intercalateStr ['\r', '\n'] (m :: rest') ++ '\r' :: '\n' :: t) := by
        simp
      rw [hshape, replaceCRLF_line_crlf l _ (hnl l (by simp)),
        ih _ (by simp) (fun x hx => hnl x (by simp [hx]))]
      rw [intercalateStr_cons₂]
      simp

theorem splitNL_intercalate (ms : List Str) (hne : ms ≠ [])
    (hnl : ∀ l ∈ ms, '\n' ∉ l) :
    splitNL (intercalateStr ['\n'] ms) = ms := by
  induction ms with
  | nil => exact absurd rfl hne
  | cons m rest ih =>
    cases rest with
    | nil => exact splitNL_no_nl_self m (hnl m (by simp))
    | cons m2 rest' =>
      rw [intercalateStr_cons₂]
      have hshape : m ++ ['\n'] ++ intercalateStr ['\n'] (m2 :: rest') =
          m ++ '\n' :: intercalateStr ['\n'] (m2 :: rest') := by simp
      rw [hshape, splitNL_append _ _ (hnl m (by simp)),
        ih (by simp) (fun x hx => hnl x (by simp [hx]))]

theorem intercalate_nl_ne_nil₂ (l m : Str) (rest : List Str) :
    intercalateStr ['\n'] (l :: m :: rest) ≠ [] := by
  rw [intercalateStr_cons₂]
  simp

theorem splitLines_join_nl (ls : List Str) (hne : ls ≠ [])
    (hnl : ∀ l ∈ ls, '\n' ∉ l) (hwit : ∃ l ∈ ls, stripCR l ≠ []) :
    splitLines (joinLines ls ['\n']) = ls.map stripCR := by
  rw [joinLines_ne_nil _ _ hne]
  have hjoin : intercalateStr ['\n'] ls ++ ['\n'] = intercalateStr ['\n'] ls ++ '\n' :: [] := rfl
  rw [hjoin]
  unfold splitLines
  rw [replaceCRLF_intercalate_nl ls [] hne hnl]
  have hrepl : intercalateStr ['\n'] (ls.map stripCR) ++ '\n' :: replaceCRLF [] =
      intercalateStr ['\n'] (ls.map stripCR) ++ ['\n'] := rfl
  rw [hrepl, trimNLSuffix_append_nl]
  have hnnil : intercalateStr ['\n'] (ls.map stripCR) ≠ [] := by
    cases ls with
    | nil => exact absurd rfl hne
    | cons l rest =>
      cases rest with
      | nil =>
        obtain ⟨w, hw, hwne⟩ := hwit
        rcases List.mem_cons.mp hw with rfl | h0
        · simpa [intercalateStr] using hwne
        · cases h0
      | cons m rest' =>
        rw [List.map_cons, List.map_cons]
        exact intercalate_nl_ne_nil₂ _ _ _
  rw [if_neg hnnil]
  refine splitNL_intercalate _ ?_ ?_
  · cases ls with
    | nil => exact absurd rfl hne
    | cons l rest => simp
  · intro x hx
    obtain ⟨y, hy, rfl⟩ := List.mem_map.mp hx
    intro hmem
    exact hnl y hy (mem_stripCR _ _ hmem)

theorem splitLines_join_crlf (ls : List Str) (hne : ls ≠ [])
    (hnl : ∀ l ∈ ls, '\n' ∉ l) (hwit : ∃ l ∈ ls, l ≠ []) :
    splitLines (joinLines ls ['\r', '\n']) = ls := by
  rw [joinLines_ne_nil _ _ hne]
  have hjoin : intercalateStr ['\r', '\n'] ls ++ ['\r', '\n'] =
      intercalateStr ['\r', '\n'] ls ++ '\r' :: '\n' :: [] := rfl
  rw [hjoin]
  unfold splitLines
  rw [replaceCRLF_intercalate_crlf ls [] hne hnl]
  have hrepl : intercalateStr ['\n'] ls ++ '\n' :: replaceCRLF [] =
      intercalateStr ['\n'] ls ++ ['\n'] := rfl
  rw [hrepl, trimNLSuffix_append_nl]
  have hnnil : intercalateStr ['\n'] ls ≠ [] := by
    cases ls with
    | nil => exact absurd rfl hne
    | cons l rest =>
      cases rest with
      | nil =>
        obtain ⟨w, hw, hwne⟩ := hwit
        rcases List.mem_cons.mp hw with rfl | h0
        · simpa [intercalateStr] using hwne
        · cases h0
      | cons m rest' => exact intercalate_nl_ne_nil₂ _ _ _
  rw [if_neg hnnil]
  exact splitNL_intercalate _ hne hnl

theorem mem_splitLines_no_nl (s : Str) : ∀ l ∈ splitLines s, '\n' ∉ l := by
  intro l hl
  simp only [splitLines] at hl
  split at hl
  · cases hl
  · exact mem_splitNL_no_nl _ l hl

theorem detectNewline_cases (s : Str) :
    detectNewline s = ['\n'] ∨ detectNewline s = ['\r', '\n'] := by
  unfold detectNewline
  split <;> simp

theorem stripBOM_fst_cases (s : Str) :
    (stripBOM s).1 = [] ∨ (stripBOM s).1 = [bomChar] := by
  cases s with
  | nil => left; rfl
  | cons c rest =>
    by_cases hc : c = bomChar
    · right; simp [stripBOM, hc]
    · left; simp [stripBOM, hc]

theorem replaceCRLF_head (s : Str) :
    (replaceCRLF s).head? = s.head? ∨ (replaceCRLF s).head? = some '\n' := by
  cases s with
  | nil => left; rfl
  | cons a tail =>
    by_cases ha : a = '\r'
    · subst ha
      cases tail with
      | nil => left; simp [replaceCRLF]
      | cons d r =>
        by_cases hd : d = '\n'
        · subst hd
          right
          rw [replaceCRLF_crlf]
          rfl
        · left
          rw [replaceCRLF_cr_cons_ne d r hd]
          rfl
    · left
      rw [replaceCRLF_cons_ne a tail ha]
      rfl

theorem trimNLSuffix_head (t : Str) :
    trimNLSuffix t = [] ∨ (trimNLSuffix t).head? = t.head? := by
  cases t with
  | nil => left; rfl
  | cons a tail =>
    cases tail with
    | nil =>
      by_cases ha : a = '\n'
      · subst ha; left; rfl
      · right; simp [trimNLSuffix, ha]
    | cons d r =>
      right
      have hred : trimNLSuffix (a :: d :: r) = a :: trimNLSuffix (d :: r) := by
        simp [trimNLSuffix]
      rw [hred]
      rfl

theorem splitNL_head (t : Str) :
    ((splitNL t).headD []).head? = none ∨ ((splitNL t).headD []).head? = t.head? := by
  cases t with
  | nil => left; rfl
  | cons a r =>
    by_cases ha : a = '\n'
    · subst ha; left; simp [splitNL]
    · rcases hr : splitNL r with _ | ⟨l, ls⟩
      · exact absurd hr (splitNL_ne_nil r)
      · right
        rw [splitNL_cons_of_ne a r l ls ha hr]
        rfl

theorem splitLines_head_ne (s : Str) (c : Char) (hc1 : s.head? ≠ some c) (hc2 : c ≠ '\n') :
    ((splitLines s).headD []).head? ≠ some c := by
  simp only [splitLines]
  split
  · simp
  · rename_i hguard
    rcases splitNL_head (trimNLSuffix (replaceCRLF s)) with h | h
    · rw [h]; simp
    · rw [h]
      rcases trimNLSuffix_head (replaceCRLF s) with h2 | h2
      · exact absurd h2 hguard
      · rw [h2]
        rcases replaceCRLF_head s with h3 | h3
        · rw [h3]; exact hc1
        · rw [h3]
          intro hx
          exact hc2 (by injection hx with hx'; exact hx'.symm)

theorem joinLines_head_ne (ls : List Str) (nl : Str) (c : Char)
    (h1 : ls ≠ []) (hnl : nl ≠ []) (h2 : (ls.headD []).head? ≠ some c)
    (h3 : nl.head? ≠ some c) :
    (joinLines ls nl).head? ≠ some c := by
  rw [joinLines_ne_nil _ _ h1]
  cases ls with
  | nil => exact absurd rfl h1
  | cons l rest =>
    cases rest with
    | nil =>
      cases l with
      | nil => simpa [intercalateStr] using h3
      | cons x xs => simpa [intercalateStr] using h2
    | cons m rest' =>
      rw [intercalateStr_cons₂]
      cases l with
      | nil =>
        cases nl with
        | nil => exact absurd rfl hnl
        | cons y ys => simpa using h3
      | cons x xs => simpa using h2

theorem getD_append_self (a : List Str) (b : Str) (c : List Str) :
    (a ++ b :: c).getD a.length [] = b := by
  induction a with
  | nil => rfl
  | cons x xs ih => simpa using ih

theorem mem_take_getD (ls : List Str) (n : Nat) (l : Str) (h : l ∈ ls.take n) :
    ∃ i, i < n ∧ i < ls.length ∧ ls.getD i [] = l := by
  obtain ⟨i, hi, hgl⟩ := List.mem_iff_getElem.mp h
  have hlen : i < n ∧ i < ls.length := by
    have := List.length_take n ls
    omega
  refine ⟨i, hlen.1, hlen.2, ?_⟩
  rw [List.getD_eq_getElem ls [] hlen.2]
  rw [List.getElem_take] at hgl
  exact hgl

theorem render_ne_nil (cmd : List Str) : renderNotifyLine cmd ≠ [] := by
  intro h
  have := render_head cmd
  rw [h] at this
  cases this

theorem quoteChar_no_nl (c : Char) : '\n' ∉ quoteChar c := by
  unfold quoteChar
  split_ifs with h1 h2 h3 h4 h5
  · decide
  · decide
  · decide
  · decide
  · decide
  · intro h
    rcases List.mem_singleton.mp h with rfl
    exact h4 rfl

theorem quote_no_nl (v : Str) : '\n' ∉ quoteTOMLString v := by
  unfold quoteTOMLString
  intro h
  rcases List.mem_cons.mp h with h0 | h0
  · cases h0
  · rcases List.mem_append.mp h0 with h1 | h1
    · obtain ⟨a, _, h2⟩ := List.mem_flatMap.mp h1
      exact quoteChar_no_nl a h2
    · simp at h1

theorem intercalate_no_nl (sep : Str) (ls : List Str) (hsep : '\n' ∉ sep)
    (h : ∀ l ∈ ls, '\n' ∉ l) : '\n' ∉ intercalateStr sep ls := by
  induction ls with
  | nil => simp [intercalateStr]
  | cons l rest ih =>
    cases rest with
    | nil => exact h l (by simp)
    | cons m rest' =>
      rw [intercalateStr_cons₂]
      intro hmem
      rcases List.mem_append.mp hmem with h1 | h1
      · rcases List.mem_append.mp h1 with h2 | h2
        · exact h l (by simp) h2
        · exact hsep h2
      · exact ih (fun x hx => h x (by simp [hx])) h1

theorem render_no_nl (cmd : List Str) : '\n' ∉ renderNotifyLine cmd := by
  unfold renderNotifyLine
  intro h
  rcases List.mem_append.mp h with h0 | h0
  · rcases List.mem_append.mp h0 with h1 | h1
    · simp [lstr] at h1
    · refine intercalate_no_nl (lstr ", ") _ (by decide) ?_ h1
      intro x hx
      obtain ⟨y, _, rfl⟩ := List.mem_map.mp hx
      exact quote_no_nl y
  · simp at h0

theorem upsert_second_run (bom nl : Str) (pre post : List Str) (cmd : List Str)
    (hnl : nl = ['\n'] ∨ nl = ['\r', '\n'])
    (hcmd : cmd ≠ [])
    (hpre_start : ∀ l ∈ pre, isNotifyAssignmentStart l = false)
    (hpre_table : ∀ l ∈ pre, startsWithStr (trimSpace l) ['['] = false)
    (hnonl : ∀ l ∈ pre ++ renderNotifyLine cmd :: post, '\n' ∉ l)
    (hstrip : stripBOM (bom ++ joinLines (pre ++ renderNotifyLine cmd :: post) nl) =
      (bom, joinLines (pre ++ renderNotifyLine cmd :: post) nl)) :
    UpsertNotify (bom ++ joinLines (pre ++ renderNotifyLine cmd :: post) nl) cmd =
      (bom ++ joinLines (pre ++ renderNotifyLine cmd :: post) nl, false, none) := by
  have hlsne : pre ++ renderNotifyLine cmd :: post ≠ [] := by
    cases pre <;> simp
  obtain ⟨pre', post', hsplit, hp'start, hp'table⟩ :
      ∃ pre' post',
        splitLines (joinLines (pre ++ renderNotifyLine cmd :: post) nl) =
          pre' ++ renderNotifyLine cmd :: post' ∧
        (∀ l ∈ pre', isNotifyAssignmentStart l = false) ∧
        (∀ l ∈ pre', startsWithStr (trimSpace l) ['['] = false) := by
    rcases hnl with rfl | rfl
    · have hr := splitLines_join_nl (pre ++ renderNotifyLine cmd :: post) hlsne hnonl
        ⟨renderNotifyLine cmd, by simp, by rw [stripCR_render]; exact render_ne_nil cmd⟩
      refine ⟨pre.map stripCR, post.map stripCR, ?_, ?_, ?_⟩
      · rw [hr]
        simp [stripCR_render]
      · intro l hl
        obtain ⟨y, hy, rfl⟩ := List.mem_map.mp hl
        exact not_isStart_stripCR y (hpre_start y hy)
      · intro l hl
        obtain ⟨y, hy, rfl⟩ := List.mem_map.mp hl
        rw [trimSpace_stripCR]
        exact hpre_table y hy
    · have hr := splitLines_join_crlf (pre ++ renderNotifyLine cmd :: post) hlsne hnonl
        ⟨renderNotifyLine cmd, by simp, render_ne_nil cmd⟩
      exact ⟨pre, post, hr, hpre_start, hpre_table⟩
  have hlines_ne : splitLines (joinLines (pre ++ renderNotifyLine cmd :: post) nl) ≠ [] := by
    rw [hsplit]
    cases pre' <;> simp
  have hft : firstTableIndex (splitLines (joinLines (pre ++ renderNotifyLine cmd :: post) nl)) =
      pre'.length + (1 + firstTableIndex post') := by
    rw [hsplit, firstTableIndex_append_not _ _ hp'table, firstTableIndex_render_cons]
  have htake : (splitLines (joinLines (pre ++ renderNotifyLine cmd :: post) nl)).take
      (firstTableIndex (splitLines (joinLines (pre ++ renderNotifyLine cmd :: post) nl))) =
      pre' ++ renderNotifyLine cmd :: post'.take (firstTableIndex post') := by
    rw [hft, hsplit, List.take_append]
    rw [show 1 + firstTableIndex post' = firstTableIndex post' + 1 from by omega]
    rw [List.take_succ_cons]
  have hfind : findTopLevelNotify
      ((splitLines (joinLines (pre ++ renderNotifyLine cmd :: post) nl)).take
        (firstTableIndex (splitLines (joinLines (pre ++ renderNotifyLine cmd :: post) nl)))) =
      Except.ok (pre'.length, 1 + pre'.length, true) := by
    rw [htake]
    have h := find_append_not_start pre'
      (renderNotifyLine cmd :: post'.take (firstTableIndex post')) 0 1 hp'start
      (find_cons_render cmd _)
    simpa using h
  have hcond : 1 + pre'.length - pre'.length = 1 ∧
      trimSpace ((splitLines (joinLines (pre ++ renderNotifyLine cmd :: post) nl)).getD
        pre'.length []) = renderNotifyLine cmd := by
    refine ⟨by omega, ?_⟩
    rw [hsplit, getD_append_self, trimSpace_render]
  simp only [UpsertNotify, if_neg hcmd, hstrip, if_neg hlines_ne, hfind, if_true]
  rw [if_pos hcond]

theorem stripBOM_fst_nil_snd (s : Str) (h : (stripBOM s).1 = []) : (stripBOM s).2 = s := by
  cases s with
  | nil => rfl
  | cons c rest =>
    simp only [stripBOM] at h ⊢
    by_cases hc : c = bomChar
    · rw [if_pos hc] at h; cases h
    · rw [if_neg hc]

theorem getD_take (ls : List Str) (n i : Nat) (hi : i < n) :
    (ls.take n).getD i [] = ls.getD i [] := by
  induction ls generalizing n i with
  | nil => simp
  | cons l rest ih =>
    cases n with
    | zero => omega
    | succ m =>
      cases i with
      | zero => rfl
      | succ j =>
        simp only [List.take_succ_cons, List.getD_cons_succ]
        exact ih m j (by omega)

theorem headD_take (ls : List Str) (s : Nat) (hs : 1 ≤ s) :
    (ls.take s).headD [] = ls.headD [] := by
  cases ls with
  | nil => simp
  | cons l rest =>
    cases s with
    | zero => omega
    | succ k => rfl

theorem headD_append_ne (a b : List Str) (ha : a ≠ []) :
    ((a ++ b).headD []) = a.headD [] := by
  cases a with
  | nil => exact absurd rfl ha
  | cons l rest => rfl

theorem firstTableIndex_zero_table (ls : List Str) (hne : ls ≠ []) (h : firstTableIndex ls = 0) :
    startsWithStr (trimSpace (ls.headD [])) ['['] = true := by
  cases ls with
  | nil => exact absurd rfl hne
  | cons l rest =>
    cases htab : startsWithStr (trimSpace l) ['[']
    · rw [firstTableIndex_cons_not _ _ htab] at h
      omega
    · simpa using htab

theorem append_cons_ne_nil (a : List Str) (b : Str) (c : List Str) : a ++ b :: c ≠ [] := by
  intro h0
  have := congrArg List.length h0
  simp at this

/-- C1: the TOML upsert is idempotent: whenever UpsertNotify succeeds on
    any content, a second run on the produced content succeeds, returns
    that content byte-for-byte, and reports changed = false. -/
theorem UpsertNotify_idempotent (x : Str) (cmd : List Str) (c : Str) (ch : Bool)
    (h : UpsertNotify x cmd = (c, ch, none)) :
    UpsertNotify c cmd = (c, false, none) := by
  by_cases hcmd : cmd = []
  · simp [UpsertNotify, hcmd] at h
  have hnlc := detectNewline_cases (stripBOM x).2
  have hstrip_gen : ∀ ls : List Str, ls ≠ [] →
      ((stripBOM x).1 = [] → ((ls.headD []).head? ≠ some bomChar)) →
      stripBOM ((stripBOM x).1 ++ joinLines ls (detectNewline (stripBOM x).2)) =
        ((stripBOM x).1, joinLines ls (detectNewline (stripBOM x).2)) := by
    intro ls hne hhead
    rcases stripBOM_fst_cases x with hb | hb
    · rw [hb, List.nil_append]
      apply stripBOM_of_head_ne
      refine joinLines_head_ne ls _ bomChar hne ?_ (hhead hb) ?_
      · rcases hnlc with h1 | h1 <;> (rw [h1]; decide)
      · rcases hnlc with h1 | h1 <;> (rw [h1]; decide)
    · rw [hb]
      exact stripBOM_bom_cons _
  have hnonl_lines : ∀ l ∈ splitLines (stripBOM x).2, '\n' ∉ l :=
    mem_splitLines_no_nl _
  have hhead_lines : (stripBOM x).1 = [] →
      (((splitLines (stripBOM x).2).headD []).head?) ≠ some bomChar := by
    intro hb
    have h2 := stripBOM_fst_nil_snd x hb
    refine splitLines_head_ne _ _ ?_ (by decide)
    rw [h2]
    exact stripBOM_head_ne x hb
  by_cases hl0 : splitLines (stripBOM x).2 = []
  · have hx : UpsertNotify x cmd =
        ((stripBOM x).1 ++ renderNotifyLine cmd ++ detectNewline (stripBOM x).2, true, none) := by
      simp only [UpsertNotify, if_neg hcmd, if_pos hl0]
    rw [hx] at h
    simp only [Prod.mk.injEq] at h
    obtain ⟨hc, -, -⟩ := h
    subst hc
    have hshape : (stripBOM x).1 ++ renderNotifyLine cmd ++ detectNewline (stripBOM x).2 =
        (stripBOM x).1 ++
          joinLines ([] ++ renderNotifyLine cmd :: []) (detectNewline (stripBOM x).2) := by
      simp [joinLines, intercalateStr]
    rw [hshape]
    refine upsert_second_run _ _ [] [] cmd hnlc hcmd (by simp) (by simp) ?_ ?_
    · intro l hl
      rw [List.nil_append] at hl
      rcases List.mem_cons.mp hl with rfl | h0
      · exact render_no_nl cmd
      · cases h0
    · refine hstrip_gen _ (by simp) ?_
      intro _
      simp only [List.nil_append, List.headD_cons, render_head]
      decide
  rcases hfi : findTopLevelNotify ((splitLines (stripBOM x).2).take
      (firstTableIndex (splitLines (stripBOM x).2))) with msg | ⟨s, e, found⟩
  · have hx : UpsertNotify x cmd = ([], false, some msg) := by
      simp only [UpsertNotify, if_neg hcmd, if_neg hl0, hfi]
    rw [hx] at h
    simp at h
  cases found
  · by_cases hhead : firstTableIndex (splitLines (stripBOM x).2) = 0 ∧
        splitLines (stripBOM x).2 ≠ [] ∧
        startsWithStr (trimSpace ((splitLines (stripBOM x).2).headD [])) ['['] = true
    · have hx : UpsertNotify x cmd = ((stripBOM x).1 ++
          joinLines (renderNotifyLine cmd :: [] :: splitLines (stripBOM x).2)
            (detectNewline (stripBOM x).2), true, none) := by
        simp only [UpsertNotify, if_neg hcmd, if_neg hl0, hfi, Bool.false_eq_true, if_false,
          if_pos hhead]
      rw [hx] at h
      simp only [Prod.mk.injEq] at h
      obtain ⟨hc, -, -⟩ := h
      subst hc
      have hshape : renderNotifyLine cmd :: [] :: splitLines (stripBOM x).2 =
          [] ++ renderNotifyLine cmd :: ([] :: splitLines (stripBOM x).2) := by simp
      rw [hshape]
      refine upsert_second_run _ _ [] ([] :: splitLines (stripBOM x).2) cmd hnlc hcmd
        (by simp) (by simp) ?_ ?_
      · intro l hl
        rw [List.nil_append] at hl
        rcases List.mem_cons.mp hl with rfl | h0
        · exact render_no_nl cmd
        · rcases List.mem_cons.mp h0 with rfl | h1
          · simp
          · exact hnonl_lines l h1
      · refine hstrip_gen _ (by simp) ?_
        intro _
        simp only [List.nil_append, List.headD_cons, render_head]
        decide
    · have hx : UpsertNotify x cmd = ((stripBOM x).1 ++
          joinLines ((splitLines (stripBOM x).2).take
              (firstTableIndex (splitLines (stripBOM x).2)) ++
            renderNotifyLine cmd :: (splitLines (stripBOM x).2).drop
              (firstTableIndex (splitLines (stripBOM x).2)))
            (detectNewline (stripBOM x).2), true, none) := by
        simp only [UpsertNotify, if_neg hcmd, if_neg hl0, hfi, Bool.false_eq_true, if_false,
          if_neg hhead]
      rw [hx] at h
      simp only [Prod.mk.injEq] at h
      obtain ⟨hc, -, -⟩ := h
      subst hc
      have hft1 : 1 ≤ firstTableIndex (splitLines (stripBOM x).2) := by
        by_contra h0
        push_neg at h0
        have h1 : firstTableIndex (splitLines (stripBOM x).2) = 0 := by omega
        exact hhead ⟨h1, hl0, firstTableIndex_zero_table _ hl0 h1⟩
      have hlenpos : (splitLines (stripBOM x).2).length ≠ 0 := by
        intro hz
        exact hl0 (List.length_eq_zero.mp hz)
      refine upsert_second_run _ _ _ _ cmd hnlc hcmd ?_ ?_ ?_ ?_
      · exact find_not_found _ s e hfi
      · intro l hl
        obtain ⟨i, hi, hilen, hgd⟩ := mem_take_getD _ _ _ hl
        rw [← hgd]
        exact firstTableIndex_lt_not_table _ i hi
      · intro l hl
        rcases List.mem_append.mp hl with h0 | h0
        · exact hnonl_lines l (List.take_subset _ _ h0)
        · rcases List.mem_cons.mp h0 with rfl | h1
          · exact render_no_nl cmd
          · exact hnonl_lines l (List.drop_subset _ _ h1)
      · have htk : (splitLines (stripBOM x).2).take
            (firstTableIndex (splitLines (stripBOM x).2)) ≠ [] := by
          intro h0
          have := congrArg List.length h0
          simp only [List.length_take, List.length_nil] at this
          omega
        refine hstrip_gen _ (append_cons_ne_nil _ _ _) ?_
        intro hb
        rw [headD_append_ne _ _ htk, headD_take _ _ hft1]
        exact hhead_lines hb
  · obtain ⟨hse, hele, hpre_idx, hstart_s, st', hcc, hncc⟩ := find_found_decomp _ _ _ hfi
    have hlen_take : ((splitLines (stripBOM x).2).take
        (firstTableIndex (splitLines (stripBOM x).2))).length =
        min (firstTableIndex (splitLines (stripBOM x).2))
          (splitLines (stripBOM x).2).length := List.length_take _ _
    by_cases hid : e - s = 1 ∧
        trimSpace ((splitLines (stripBOM x).2).getD s []) = renderNotifyLine cmd
    · have hx : UpsertNotify x cmd = ((stripBOM x).1 ++ (stripBOM x).2, false, none) := by
        simp only [UpsertNotify, if_neg hcmd, if_neg hl0, hfi, if_true]
        rw [if_pos hid]
      rw [hx] at h
      simp only [Prod.mk.injEq] at h
      obtain ⟨hc, -, -⟩ := h
      subst hc
      rw [stripBOM_recombine]
      rw [hx, stripBOM_recombine]
    · have hx : UpsertNotify x cmd = ((stripBOM x).1 ++
          joinLines ((splitLines (stripBOM x).2).take s ++
            renderNotifyLine cmd :: (splitLines (stripBOM x).2).drop e)
            (detectNewline (stripBOM x).2), true, none) := by
        simp only [UpsertNotify, if_neg hcmd, if_neg hl0, hfi, if_true]
        rw [if_neg hid]
      rw [hx] at h
      simp only [Prod.mk.injEq] at h
      obtain ⟨hc, -, -⟩ := h
      subst hc
      have hsbound : s < min (firstTableIndex (splitLines (stripBOM x).2))
          (splitLines (stripBOM x).2).length := by
        rw [hlen_take] at hele
        omega
      refine upsert_second_run _ _ _ _ cmd hnlc hcmd ?_ ?_ ?_ ?_
      · intro l hl
        obtain ⟨i, hi, hilen, hgd⟩ := mem_take_getD _ _ _ hl
        rw [← hgd]
        have h2 := hpre_idx i hi
        rw [getD_take _ _ _ (by omega)] at h2
        exact h2
      · intro l hl
        obtain ⟨i, hi, hilen, hgd⟩ := mem_take_getD _ _ _ hl
        rw [← hgd]
        exact firstTableIndex_lt_not_table _ i (by omega)
      · intro l hl
        rcases List.mem_append.mp hl with h0 | h0
        · exact hnonl_lines l (List.take_subset _ _ h0)
        · rcases List.mem_cons.mp h0 with rfl | h1
          · exact render_no_nl cmd
          · exact hnonl_lines l (List.drop_subset _ _ h1)
      · refine hstrip_gen _ (append_cons_ne_nil _ _ _) ?_
        intro hb
        by_cases hs0 : s = 0
        · rw [hs0, List.take_zero, List.nil_append, List.headD_cons, render_head]
          decide
        · have hs1 : 1 ≤ s := by omega
          have htk : (splitLines (stripBOM x).2).take s ≠ [] := by
            intro h0
            have := congrArg List.length h0
            simp only [List.length_take, List.length_nil] at this
            omega
          rw [headD_append_ne _ _ htk, headD_take _ _ hs1]
          exact hhead_lines hb

theorem UpsertNotify_idempotent_witness :
    UpsertNotify (lstr "notify = [\"a\"]\n") [lstr "a"] =
      (lstr "notify = [\"a\"]\n", false, none) :=
  UpsertNotify_idempotent (lstr "") [lstr "a"] (lstr "notify = [\"a\"]\n") true (by decide)

theorem countNotifyAux_cons_start (f : Nat) (l : Str) (rest : List Str) (st2 : AssignmentState)
    (n : Nat) (hs : isNotifyAssignmentStart l = true)
    (hcc : consumeContinuation (scanLine initialAssignmentState (afterEquals l)) rest = (st2, n)) :
    countNotifyAux (f + 1) (l :: rest) = 1 + countNotifyAux f (rest.drop n) := by
  simp [countNotifyAux, hs, hcc]

theorem countNotifyAux_cons_not (f : Nat) (l : Str) (rest : List Str)
    (hs : isNotifyAssignmentStart l = false) :
    countNotifyAux (f + 1) (l :: rest) = countNotifyAux f rest := by
  simp [countNotifyAux, hs]

theorem countNotifyAux_nil (f : Nat) : countNotifyAux f [] = 0 := by
  cases f <;> rfl

theorem countNotifyAux_fuel (ls : List Str) :
    ∀ f1 f2 : Nat, ls.length ≤ f1 → ls.length ≤ f2 →
    countNotifyAux f1 ls = countNotifyAux f2 ls := by
  have H : ∀ N : Nat, ∀ ls : List Str, ls.length ≤ N → ∀ f1 f2 : Nat,
      ls.length ≤ f1 → ls.length ≤ f2 → countNotifyAux f1 ls = countNotifyAux f2 ls := by
    intro N
    induction N with
    | zero =>
      intro ls hN f1 f2 _ _
      have : ls = [] := List.length_eq_zero.mp (by omega)
      subst this
      rw [countNotifyAux_nil, countNotifyAux_nil]
    | succ N ihN =>
      intro ls hN f1 f2 h1 h2
      cases ls with
      | nil => rw [countNotifyAux_nil, countNotifyAux_nil]
      | cons l rest =>
        simp only [List.length_cons] at hN h1 h2
        cases f1 with
        | zero => omega
        | succ g1 =>
          cases f2 with
          | zero => omega
          | succ g2 =>
            cases hs : isNotifyAssignmentStart l
            · rw [countNotifyAux_cons_not g1 l rest hs, countNotifyAux_cons_not g2 l rest hs]
              exact ihN rest (by omega) g1 g2 (by omega) (by omega)
            · rcases hcc : consumeContinuation (scanLine initialAssignmentState (afterEquals l))
                rest with ⟨st2, n⟩
              rw [countNotifyAux_cons_start g1 l rest st2 n hs hcc,
                countNotifyAux_cons_start g2 l rest st2 n hs hcc]
              have hlen : (rest.drop n).length ≤ N := by
                simp only [List.length_drop]
                omega
              rw [ihN (rest.drop n) hlen g1 g2
                (by simp only [List.length_drop]; omega)
                (by simp only [List.length_drop]; omega)]
  exact fun f1 f2 h1 h2 => H ls.length ls le_rfl f1 f2 h1 h2

theorem countNotifyAux_no_starts (ls : List Str) :
    ∀ f : Nat, (∀ l ∈ ls, isNotifyAssignmentStart l = false) → countNotifyAux f ls = 0 := by
  induction ls with
  | nil => intro f _; cases f <;> rfl
  | cons l rest ih =>
    intro f h
    cases f with
    | zero => rfl
    | succ f' =>
      rw [countNotifyAux_cons_not f' l rest (h l (by simp))]
      exact ih f' (fun x hx => h x (by simp [hx]))

theorem countNotifyAux_zero_no_starts (ls : List Str) :
    ∀ f : Nat, ls.length ≤ f → countNotifyAux f ls = 0 →
    ∀ l ∈ ls, isNotifyAssignmentStart l = false := by
  induction ls with
  | nil => intro f _ _ l hl; cases hl
  | cons l rest ih =>
    intro f hf h0 l' hl'
    cases f with
    | zero => simp at hf
    | succ f' =>
      cases hs : isNotifyAssignmentStart l
      · rw [countNotifyAux_cons_not f' l rest hs] at h0
        rcases List.mem_cons.mp hl' with rfl | hmem
        · exact hs
        · exact ih f' (by simp at hf ⊢; omega) h0 l' hmem
      · rcases hcc : consumeContinuation (scanLine initialAssignmentState (afterEquals l)) rest
          with ⟨st2, n⟩
        rw [countNotifyAux_cons_start f' l rest st2 n hs hcc] at h0
        omega

theorem countNotifyAux_skip (pre rest : List Str)
    (hpre : ∀ l ∈ pre, isNotifyAssignmentStart l = false) :
    ∀ f : Nat, (pre ++ rest).length ≤ f →
    countNotifyAux f (pre ++ rest) = countNotifyAux rest.length rest := by
  induction pre with
  | nil =>
    intro f hf
    simpa using countNotifyAux_fuel rest f rest.length (by simpa using hf) le_rfl
  | cons p ps ih =>
    intro f hf
    cases f with
    | zero => simp at hf
    | succ f' =>
      rw [List.cons_append, countNotifyAux_cons_not f' p (ps ++ rest) (hpre p (by simp))]
      exact ih (fun x hx => hpre x (by simp [hx])) f' (by simp at hf ⊢; omega)

theorem countNotifyAux_render_head (cmd : List Str) (mid : List Str) (f : Nat)
    (hf : mid.length + 1 ≤ f)
    (hmid : ∀ l ∈ mid, isNotifyAssignmentStart l = false) :
    countNotifyAux f (renderNotifyLine cmd :: mid) = 1 := by
  cases f with
  | zero => omega
  | succ f' =>
    have hinit : needsContinuation initialAssignmentState = false := rfl
    rw [countNotifyAux_cons_start f' _ mid initialAssignmentState 0 (isStart_render cmd)
      (by rw [scanLine_render_closed]; exact consumeContinuation_done _ _ hinit)]
    rw [List.drop_zero]
    rw [countNotifyAux_no_starts mid f' hmid]

theorem firstTableIndex_map_stripCR (ls : List Str) :
    firstTableIndex (ls.map stripCR) = firstTableIndex ls := by
  induction ls with
  | nil => rfl
  | cons l rest ih =>
    simp only [List.map_cons, firstTableIndex, trimSpace_stripCR, ih]

theorem firstTableIndex_getD_table (ls : List Str) (h : firstTableIndex ls < ls.length) :
    startsWithStr (trimSpace (ls.getD (firstTableIndex ls) [])) ['['] = true := by
  induction ls with
  | nil => simp at h
  | cons l rest ih =>
    cases htab : startsWithStr (trimSpace l) ['[']
    · rw [firstTableIndex_cons_not _ _ htab] at h ⊢
      rw [show 1 + firstTableIndex rest = firstTableIndex rest + 1 from by omega]
      rw [List.getD_cons_succ]
      refine ih ?_
      simp only [List.length_cons] at h
      omega
    · rw [firstTableIndex_cons_table _ _ htab]
      simpa using htab

theorem firstTableIndex_drop (e : Nat) :
    ∀ ls : List Str, e ≤ firstTableIndex ls →
    firstTableIndex (ls.drop e) = firstTableIndex ls - e := by
  induction e with
  | zero => intro ls _; simp
  | succ k ih =>
    intro ls he
    cases ls with
    | nil => simp [firstTableIndex]
    | cons l rest =>
      have hl : startsWithStr (trimSpace l) ['['] = false := by
        cases htab : startsWithStr (trimSpace l) ['[']
        · rfl
        · rw [firstTableIndex_cons_table _ _ htab] at he
          omega
      rw [firstTableIndex_cons_not _ _ hl] at he ⊢
      rw [List.drop_succ_cons, ih rest (by omega)]
      omega

theorem drop_eq_getD_cons (ls : List Str) (i : Nat) (h : i < ls.length) :
    ls.drop i = ls.getD i [] :: ls.drop (i + 1) := by
  rw [List.getD_eq_getElem ls [] h]
  exact List.drop_eq_getElem_cons h

theorem count_second_run (bom nl : Str) (pre post : List Str) (cmd : List Str)
    (hnl : nl = ['\n'] ∨ nl = ['\r', '\n'])
    (hpre_start : ∀ l ∈ pre, isNotifyAssignmentStart l = false)
    (hpre_table : ∀ l ∈ pre, startsWithStr (trimSpace l) ['['] = false)
    (hnonl : ∀ l ∈ pre ++ renderNotifyLine cmd :: post, '\n' ∉ l)
    (hstrip : stripBOM (bom ++ joinLines (pre ++ renderNotifyLine cmd :: post) nl) =
      (bom, joinLines (pre ++ renderNotifyLine cmd :: post) nl))
    (hpost_root : ∀ l ∈ post.take (firstTableIndex post), isNotifyAssignmentStart l = false) :
    countTopLevelNotify (bom ++ joinLines (pre ++ renderNotifyLine cmd :: post) nl) = 1 := by
  have hlsne : pre ++ renderNotifyLine cmd :: post ≠ [] := append_cons_ne_nil _ _ _
  obtain ⟨pre', post', hsplit, hp'start, hp'table, hmid⟩ :
      ∃ pre' post',
        splitLines (joinLines (pre ++ renderNotifyLine cmd :: post) nl) =
          pre' ++ renderNotifyLine cmd :: post' ∧
        (∀ l ∈ pre', isNotifyAssignmentStart l = false) ∧
        (∀ l ∈ pre', startsWithStr (trimSpace l) ['['] = false) ∧
        (∀ l ∈ post'.take (firstTableIndex post'), isNotifyAssignmentStart l = false) := by
    rcases hnl with rfl | rfl
    · have hr := splitLines_join_nl (pre ++ renderNotifyLine cmd :: post) hlsne hnonl
        ⟨renderNotifyLine cmd, by simp, by rw [stripCR_render]; exact render_ne_nil cmd⟩
      refine ⟨pre.map stripCR, post.map stripCR, ?_, ?_, ?_, ?_⟩
      · rw [hr]
        simp [stripCR_render]
      · intro l hl
        obtain ⟨y, hy, rfl⟩ := List.mem_map.mp hl
        exact not_isStart_stripCR y (hpre_start y hy)
      · intro l hl
        obtain ⟨y, hy, rfl⟩ := List.mem_map.mp hl
        rw [trimSpace_stripCR]
        exact hpre_table y hy
      · intro l hl
        rw [firstTableIndex_map_stripCR, ← List.map_take] at hl
        obtain ⟨y, hy, rfl⟩ := List.mem_map.mp hl
        exact not_isStart_stripCR y (hpost_root y hy)
    · have hr := splitLines_join_crlf (pre ++ renderNotifyLine cmd :: post) hlsne hnonl
        ⟨renderNotifyLine cmd, by simp, render_ne_nil cmd⟩
      exact ⟨pre, post, hr, hpre_start, hpre_table, hpost_root⟩
  simp only [countTopLevelNotify, hstrip]
  rw [hsplit]
  have hft : firstTableIndex (pre' ++ renderNotifyLine cmd :: post') =
      pre'.length + (1 + firstTableIndex post') := by
    rw [firstTableIndex_append_not _ _ hp'table, firstTableIndex_render_cons]
  rw [hft, List.take_append,
    show 1 + firstTableIndex post' = firstTableIndex post' + 1 from by omega,
    List.take_succ_cons]
  rw [countNotifyAux_skip pre' _ hp'start _ ?_]
  · rw [countNotifyAux_render_head cmd _ _ (by simp) hmid]
  · simp only [List.length_append, List.length_cons, List.length_take]
    omega

theorem countTopLevelNotify_found (x : Str) (s e : Nat)
    (hfi : findTopLevelNotify ((splitLines (stripBOM x).2).take
      (firstTableIndex (splitLines (stripBOM x).2))) = Except.ok (s, e, true)) :
    countTopLevelNotify x = 1 +
      countNotifyAux (((splitLines (stripBOM x).2).take
          (firstTableIndex (splitLines (stripBOM x).2))).drop e).length
        (((splitLines (stripBOM x).2).take
          (firstTableIndex (splitLines (stripBOM x).2))).drop e) := by
  obtain ⟨hse, hele, hpre_idx, hstart_s, st', hcc, hncc⟩ := find_found_decomp _ _ _ hfi
  simp only [countTopLevelNotify]
  conv_lhs =>
    rw [← List.take_append_drop s ((splitLines (stripBOM x).2).take
      (firstTableIndex (splitLines (stripBOM x).2)))]
  rw [countNotifyAux_skip _ _ ?_ _ ?_]
  · have hslen : s < ((splitLines (stripBOM x).2).take
        (firstTableIndex (splitLines (stripBOM x).2))).length := by omega
    rw [drop_eq_getD_cons _ s hslen]
    simp only [List.length_cons]
    rw [countNotifyAux_cons_start _ _ _ st' (e - s - 1) hstart_s hcc]
    rw [List.drop_drop]
    rw [show s + 1 + (e - s - 1) = e from by omega]
    rw [countNotifyAux_fuel _ _ (((splitLines (stripBOM x).2).take
        (firstTableIndex (splitLines (stripBOM x).2))).drop e).length ?_ le_rfl]
    simp only [List.length_drop]
    omega
  · intro l hl
    obtain ⟨i, hi, hilen, hgd⟩ := mem_take_getD _ _ _ hl
    rw [← hgd]
    exact hpre_idx i hi
  · rw [List.take_append_drop]
    simp only [List.length_take]
    omega

/-- C4 counterexample: uniqueness fails in the presence of duplicates.  On the
    input `notify = [1]\nnotify = [2]\n` the upsert succeeds (it replaces only
    the first assignment), yet the produced content still contains two
    top-level notify assignments. -/
theorem upsert_unique_cex :
    (UpsertNotify (lstr "notify = [1]\nnotify = [2]\n") [lstr "a"]).2.2 = none ∧
    countTopLevelNotify (UpsertNotify (lstr "notify = [1]\nnotify = [2]\n") [lstr "a"]).1 = 2 := by
  decide

/-- C4 (amended): after a successful UpsertNotify on content that held at most
    one top-level notify assignment, scanning the result finds exactly one
    top-level notify assignment.  The code replaces only the first matched
    span, so duplicates beyond the first survive and the at-most-one
    hypothesis is necessary. -/
theorem upsert_unique_of_at_most_one (x : Str) (cmd : List Str) (c : Str) (ch : Bool)
    (h : UpsertNotify x cmd = (c, ch, none))
    (hone : countTopLevelNotify x ≤ 1) :
    countTopLevelNotify c = 1 := by
  by_cases hcmd : cmd = []
  · simp [UpsertNotify, hcmd] at h
  have hnlc := detectNewline_cases (stripBOM x).2
  have hstrip_gen : ∀ ls : List Str, ls ≠ [] →
      ((stripBOM x).1 = [] → ((ls.headD []).head? ≠ some bomChar)) →
      stripBOM ((stripBOM x).1 ++ joinLines ls (detectNewline (stripBOM x).2)) =
        ((stripBOM x).1, joinLines ls (detectNewline (stripBOM x).2)) := by
    intro ls hne hhead
    rcases stripBOM_fst_cases x with hb | hb
    · rw [hb, List.nil_append]
      apply stripBOM_of_head_ne
      refine joinLines_head_ne ls _ bomChar hne ?_ (hhead hb) ?_
      · rcases hnlc with h1 | h1 <;> (rw [h1]; decide)
      · rcases hnlc with h1 | h1 <;> (rw [h1]; decide)
    · rw [hb]
      exact stripBOM_bom_cons _
  have hnonl_lines : ∀ l ∈ splitLines (stripBOM x).2, '\n' ∉ l :=
    mem_splitLines_no_nl _
  have hhead_lines : (stripBOM x).1 = [] →
      (((splitLines (stripBOM x).2).headD []).head?) ≠ some bomChar := by
    intro hb
    have h2 := stripBOM_fst_nil_snd x hb
    refine splitLines_head_ne _ _ ?_ (by decide)
    rw [h2]
    exact stripBOM_head_ne x hb
  by_cases hl0 : splitLines (stripBOM x).2 = []
  · have hx : UpsertNotify x cmd =
        ((stripBOM x).1 ++ renderNotifyLine cmd ++ detectNewline (stripBOM x).2, true, none) := by
      simp only [UpsertNotify, if_neg hcmd, if_pos hl0]
    rw [hx] at h
    simp only [Prod.mk.injEq] at h
    obtain ⟨hc, -, -⟩ := h
    subst hc
    have hshape : (stripBOM x).1 ++ renderNotifyLine cmd ++ detectNewline (stripBOM x).2 =
        (stripBOM x).1 ++
          joinLines ([] ++ renderNotifyLine cmd :: []) (detectNewline (stripBOM x).2) := by
      simp [joinLines, intercalateStr]
    rw [hshape]
    refine count_second_run _ _ [] [] cmd hnlc (by simp) (by simp) ?_ ?_ (by simp)
    · intro l hl
      rw [List.nil_append] at hl
      rcases List.mem_cons.mp hl with rfl | h0
      · exact render_no_nl cmd
      · cases h0
    · refine hstrip_gen _ (by simp) ?_
      intro _
      simp only [List.nil_append, List.headD_cons, render_head]
      decide
  rcases hfi : findTopLevelNotify ((splitLines (stripBOM x).2).take
      (firstTableIndex (splitLines (stripBOM x).2))) with msg | ⟨s, e, found⟩
  · have hx : UpsertNotify x cmd = ([], false, some msg) := by
      simp only [UpsertNotify, if_neg hcmd, if_neg hl0, hfi]
    rw [hx] at h
    simp at h
  cases found
  · by_cases hhead : firstTableIndex (splitLines (stripBOM x).2) = 0 ∧
        splitLines (stripBOM x).2 ≠ [] ∧
        startsWithStr (trimSpace ((splitLines (stripBOM x).2).headD [])) ['['] = true
    · have hx : UpsertNotify x cmd = ((stripBOM x).1 ++
          joinLines (renderNotifyLine cmd :: [] :: splitLines (stripBOM x).2)
            (detectNewline (stripBOM x).2), true, none) := by
        simp only [UpsertNotify, if_neg hcmd, if_neg hl0, hfi, Bool.false_eq_true, if_false,
          if_pos hhead]
      rw [hx] at h
      simp only [Prod.mk.injEq] at h
      obtain ⟨hc, -, -⟩ := h
      subst hc
      have hshape : renderNotifyLine cmd :: [] :: splitLines (stripBOM x).2 =
          [] ++ renderNotifyLine cmd :: ([] :: splitLines (stripBOM x).2) := by simp
      rw [hshape]
      refine count_second_run _ _ [] ([] :: splitLines (stripBOM x).2) cmd hnlc
        (by simp) (by simp) ?_ ?_ ?_
      · intro l hl
        rw [List.nil_append] at hl
        rcases List.mem_cons.mp hl with rfl | h0
        · exact render_no_nl cmd
        · rcases List.mem_cons.mp h0 with rfl | h1
          · simp
          · exact hnonl_lines l h1
      · refine hstrip_gen _ (by simp) ?_
        intro _
        simp only [List.nil_append, List.headD_cons, render_head]
        decide
      · intro l hl
        rw [firstTableIndex_cons_not _ _ (by decide), hhead.1, List.take_succ_cons,
          List.take_zero] at hl
        rcases List.mem_cons.mp hl with rfl | h0
        · decide
        · cases h0
    · have hx : UpsertNotify x cmd = ((stripBOM x).1 ++
          joinLines ((splitLines (stripBOM x).2).take
              (firstTableIndex (splitLines (stripBOM x).2)) ++
            renderNotifyLine cmd :: (splitLines (stripBOM x).2).drop
              (firstTableIndex (splitLines (stripBOM x).2)))
            (detectNewline (stripBOM x).2), true, none) := by
        simp only [UpsertNotify, if_neg hcmd, if_neg hl0, hfi, Bool.false_eq_true, if_false,
          if_neg hhead]
      rw [hx] at h
      simp only [Prod.mk.injEq] at h
      obtain ⟨hc, -, -⟩ := h
      subst hc
      have hft1 : 1 ≤ firstTableIndex (splitLines (stripBOM x).2) := by
        by_contra h0
        push_neg at h0
        have h1 : firstTableIndex (splitLines (stripBOM x).2) = 0 := by omega
        exact hhead ⟨h1, hl0, firstTableIndex_zero_table _ hl0 h1⟩
      have hlenpos : (splitLines (stripBOM x).2).length ≠ 0 := by
        intro hz
        exact hl0 (List.length_eq_zero.mp hz)
      refine count_second_run _ _ _ _ cmd hnlc ?_ ?_ ?_ ?_ ?_
      · exact find_not_found _ s e hfi
      · intro l hl
        obtain ⟨i, hi, hilen, hgd⟩ := mem_take_getD _ _ _ hl
        rw [← hgd]
        exact firstTableIndex_lt_not_table _ i hi
      · intro l hl
        rcases List.mem_append.mp hl with h0 | h0
        · exact hnonl_lines l (List.take_subset _ _ h0)
        · rcases List.mem_cons.mp h0 with rfl | h1
          · exact render_no_nl cmd
          · exact hnonl_lines l (List.drop_subset _ _ h1)
      · have htk : (splitLines (stripBOM x).2).take
            (firstTableIndex (splitLines (stripBOM x).2)) ≠ [] := by
          intro h0
          have := congrArg List.length h0
          simp only [List.length_take, List.length_nil] at this
          omega
        refine hstrip_gen _ (append_cons_ne_nil _ _ _) ?_
        intro hb
        rw [headD_append_ne _ _ htk, headD_take _ _ hft1]
        exact hhead_lines hb
      · intro l hl
        rw [firstTableIndex_drop _ _ le_rfl, Nat.sub_self, List.take_zero] at hl
        cases hl
  · obtain ⟨hse, hele, hpre_idx, hstart_s, st', hcc, hncc⟩ := find_found_decomp _ _ _ hfi
    have hlen_take : ((splitLines (stripBOM x).2).take
        (firstTableIndex (splitLines (stripBOM x).2))).length =
        min (firstTableIndex (splitLines (stripBOM x).2))
          (splitLines (stripBOM x).2).length := List.length_take _ _
    have hcount := countTopLevelNotify_found x s e hfi
    have hdrop0 : countNotifyAux (((splitLines (stripBOM x).2).take
        (firstTableIndex (splitLines (stripBOM x).2))).drop e).length
        (((splitLines (stripBOM x).2).take
          (firstTableIndex (splitLines (stripBOM x).2))).drop e) = 0 := by omega
    have hdrop_no : ∀ l ∈ ((splitLines (stripBOM x).2).take
        (firstTableIndex (splitLines (stripBOM x).2))).drop e,
        isNotifyAssignmentStart l = false :=
      countNotifyAux_zero_no_starts _ _ le_rfl hdrop0
    by_cases hid : e - s = 1 ∧
        trimSpace ((splitLines (stripBOM x).2).getD s []) = renderNotifyLine cmd
    · have hx : UpsertNotify x cmd = ((stripBOM x).1 ++ (stripBOM x).2, false, none) := by
        simp only [UpsertNotify, if_neg hcmd, if_neg hl0, hfi, if_true]
        rw [if_pos hid]
      rw [hx] at h
      simp only [Prod.mk.injEq] at h
      obtain ⟨hc, -, -⟩ := h
      subst hc
      rw [stripBOM_recombine]
      omega
    · have hx : UpsertNotify x cmd = ((stripBOM x).1 ++
          joinLines ((splitLines (stripBOM x).2).take s ++
            renderNotifyLine cmd :: (splitLines (stripBOM x).2).drop e)
            (detectNewline (stripBOM x).2), true, none) := by
        simp only [UpsertNotify, if_neg hcmd, if_neg hl0, hfi, if_true]
        rw [if_neg hid]
      rw [hx] at h
      simp only [Prod.mk.injEq] at h
      obtain ⟨hc, -, -⟩ := h
      subst hc
      have hsbound : s < min (firstTableIndex (splitLines (stripBOM x).2))
          (splitLines (stripBOM x).2).length := by
        rw [hlen_take] at hele
        omega
      have hftle : e ≤ firstTableIndex (splitLines (stripBOM x).2) := by
        rw [hlen_take] at hele
        omega
      refine count_second_run _ _ _ _ cmd hnlc ?_ ?_ ?_ ?_ ?_
      · intro l hl
        obtain ⟨i, hi, hilen, hgd⟩ := mem_take_getD _ _ _ hl
        rw [← hgd]
        have h2 := hpre_idx i hi
        rw [getD_take _ _ _ (by omega)] at h2
        exact h2
      · intro l hl
        obtain ⟨i, hi, hilen, hgd⟩ := mem_take_getD _ _ _ hl
        rw [← hgd]
        exact firstTableIndex_lt_not_table _ i (by omega)
      · intro l hl
        rcases List.mem_append.mp hl with h0 | h0
        · exact hnonl_lines l (List.take_subset _ _ h0)
        · rcases List.mem_cons.mp h0 with rfl | h1
          · exact render_no_nl cmd
          · exact hnonl_lines l (List.drop_subset _ _ h1)
      · refine hstrip_gen _ (append_cons_ne_nil _ _ _) ?_
        intro hb
        by_cases hs0 : s = 0
        · rw [hs0, List.take_zero, List.nil_append, List.headD_cons, render_head]
          decide
        · have hs1 : 1 ≤ s := by omega
          have htk : (splitLines (stripBOM x).2).take s ≠ [] := by
            intro h0
            have := congrArg List.length h0
            simp only [List.length_take, List.length_nil] at this
            omega
          rw [headD_append_ne _ _ htk, headD_take _ _ hs1]
          exact hhead_lines hb
      · intro l hl
        rw [firstTableIndex_drop _ _ hftle, ← List.drop_take] at hl
        exact hdrop_no l hl

/-- Closed-form instance discharging the hypotheses of the amended C4
    theorem on a concrete configuration with one existing assignment. -/
theorem upsert_unique_of_at_most_one_witness :
    countTopLevelNotify (lstr "notify = [\"old\"]\nx = 1\n") ≤ 1 ∧
    countTopLevelNotify (lstr "notify = [\"a\"]\nx = 1\n") = 1 :=
  ⟨by decide,
    upsert_unique_of_at_most_one (lstr "notify = [\"old\"]\nx = 1\n") [lstr "a"]
      (lstr "notify = [\"a\"]\nx = 1\n") true (by decide) (by decide)⟩

/-- C10: a settings document that is `null` surrounded by optional whitespace
    parses without error to the empty settings object, exactly as empty
    content does; ClaudeUpsertHook then behaves identically on the two, and
    ClaudeRemoveHook reports no change and returns the original content. -/
theorem claude_null_settings (s p : Str) (h : trimSpace s = lstr "null") :
    parseClaudeSettings s = .ok [] ∧
    parseClaudeSettings [] = .ok [] ∧
    ClaudeUpsertHook s p = ClaudeUpsertHook [] p ∧
    ClaudeRemoveHook s = (s, false, none) := by
  have hparse : parseClaudeSettings s = .ok [] := by
    simp only [parseClaudeSettings, h]
    rfl
  have hnil : parseClaudeSettings [] = Except.ok [] := rfl
  have hhooks : getHooks [] = Except.ok [] := rfl
  have hrm : claudeRemoveEvents ([] : List (Str × Json)) false
      [lstr "Stop", lstr "Notification"] = Except.ok ([], false) := rfl
  refine ⟨hparse, hnil, ?_, ?_⟩
  · simp only [ClaudeUpsertHook, hparse, hnil]
  · simp only [ClaudeRemoveHook, hparse, hhooks, hrm, Bool.false_eq_true, if_false]

/-- Closed-form instance of the C10 theorem at the whitespace-surrounded
    document `" null "`. -/
theorem claude_null_settings_witness :
    parseClaudeSettings (lstr " null ") = .ok [] ∧
    parseClaudeSettings [] = .ok [] ∧
    ClaudeUpsertHook (lstr " null ") (lstr "exe") = ClaudeUpsertHook [] (lstr "exe") ∧
    ClaudeRemoveHook (lstr " null ") = (lstr " null ", false, none) :=
  claude_null_settings (lstr " null ") (lstr "exe") (by decide)

theorem removeOurHook_eq (ms : List ClaudeHookMatcher) :
    removeOurHook ms = (ms.filterMap stripGroupSpec, containsOurHook ms) := by
  induction ms with
  | nil => rfl
  | cons m t ih =>
    obtain ⟨mat, hks⟩ := m
    simp only [removeOurHook, filterOurEntries_spec, ih, List.filterMap_cons, stripGroupSpec,
      containsOurHook, List.any_cons]
    by_cases hf : hks.filter (fun h => ! containsStr h.command claudeHookMarker) = []
    · by_cases hh : hks = []
      · subst hh
        simp [containsOurHook]
      · simp [containsOurHook, hf, hh]
    · simp [containsOurHook, hf]

theorem lookupKey_eraseKey_ne (m : List (Str × Json)) (k k' : Str) (h : ¬ k = k') :
    lookupKey (eraseKey m k) k' = lookupKey m k' := by
  induction m with
  | nil => rfl
  | cons kv rest ih =>
    obtain ⟨k0, v0⟩ := kv
    by_cases h0 : k0 = k
    · simp only [eraseKey, if_pos h0, ih, lookupKey]
      rw [if_neg (fun he => h (h0.symm.trans he))]
    · simp only [eraseKey, if_neg h0, lookupKey, ih]

theorem lookupKey_insertKey_ne (m : List (Str × Json)) (k k' : Str) (v : Json) (h : ¬ k = k') :
    lookupKey (insertKey m k v) k' = lookupKey m k' := by
  induction m with
  | nil =>
    simp only [insertKey, lookupKey]
    rw [if_neg h]
  | cons kv rest ih =>
    obtain ⟨k0, v0⟩ := kv
    by_cases h0 : k0 = k
    · simp only [insertKey, if_pos h0, lookupKey]
      rw [if_neg h, if_neg (fun he => h (h0.symm.trans he))]
    · simp only [insertKey, if_neg h0, lookupKey, ih]

theorem getMatcherList_eraseKey_ne (hooks : List (Str × Json)) (k e : Str) (h : ¬ k = e) :
    getMatcherList (eraseKey hooks k) e = getMatcherList hooks e := by
  simp only [getMatcherList, lookupKey_eraseKey_ne hooks k e h]

theorem getMatcherList_set_ne (hooks : List (Str × Json)) (k e : Str)
    (ms : List ClaudeHookMatcher) (h : ¬ k = e) :
    getMatcherList (setMatcherList hooks k ms) e = getMatcherList hooks e := by
  simp only [getMatcherList, setMatcherList, lookupKey_insertKey_ne _ k e _ h]

theorem except_bind_ok {a b : Type} (x : a) (f : a -> Except String b) :
    (Except.ok x >>= f) = f x := rfl

theorem claudeRemoveEvents_cons (hooks : List (Str × Json)) (b : Bool) (event : Str)
    (rest : List Str) (ms : List ClaudeHookMatcher)
    (h : getMatcherList hooks event = .ok ms) :
    claudeRemoveEvents hooks b (event :: rest) =
      claudeRemoveEvents (removeEventStep hooks event ms)
        (b || containsOurHook ms) rest := by
  simp only [claudeRemoveEvents, h, except_bind_ok, removeEventStep, removeOurHook_eq]
  cases hc : containsOurHook ms
  · rw [if_neg Bool.false_ne_true, if_neg Bool.false_ne_true, Bool.or_false]
  · rw [if_pos rfl, if_pos rfl, Bool.or_true]
    by_cases hf : ms.filterMap stripGroupSpec = []
    · rw [if_pos hf, if_pos hf]
    · rw [if_neg hf, if_neg hf]

theorem claudeRemoveEvents_two (hooks : List (Str × Json))
    (msS msN : List ClaudeHookMatcher)
    (hS : getMatcherList hooks (lstr "Stop") = .ok msS)
    (hN : getMatcherList hooks (lstr "Notification") = .ok msN) :
    claudeRemoveEvents hooks false [lstr "Stop", lstr "Notification"] =
      .ok (removeEventStep (removeEventStep hooks (lstr "Stop") msS)
            (lstr "Notification") msN,
          containsOurHook msS || containsOurHook msN) := by
  have hne : ¬ lstr "Stop" = lstr "Notification" := by decide
  have hN1 : getMatcherList (removeEventStep hooks (lstr "Stop") msS)
      (lstr "Notification") = .ok msN := by
    simp only [removeEventStep, removeOurHook_eq]
    by_cases hc : containsOurHook msS = true
    · rw [if_pos hc]
      by_cases hf : msS.filterMap stripGroupSpec = []
      · rw [if_pos hf, getMatcherList_eraseKey_ne _ _ _ hne]
        exact hN
      · rw [if_neg hf, getMatcherList_set_ne _ _ _ _ hne]
        exact hN
    · rw [if_neg hc]
      exact hN
  rw [claudeRemoveEvents_cons _ _ _ _ _ hS, claudeRemoveEvents_cons _ _ _ _ _ hN1]
  simp only [claudeRemoveEvents, Bool.false_or]

/-- C9 counterexample: a hook entry whose command contains the marker sits
    under the foreign event key "Foo".  The decoded matcher list of that
    event contains our hook, yet ClaudeRemoveHook only inspects "Stop" and
    "Notification", so it reports changed = false and returns the content
    untouched; "otherwise it reports changed=true" fails. -/
theorem claude_remove_other_event_cex :
    (match parseClaudeSettings (lstr "\x7b\"hooks\":\x7b\"Foo\":[\x7b\"matcher\":\"\",\"hooks\":[\x7b\"type\":\"command\",\"command\":\"cc-notify x\"\x7d]\x7d]\x7d\x7d") with
      | Except.ok s =>
        match getHooks s with
        | Except.ok hs =>
          match getMatcherList hs (lstr "Foo") with
          | Except.ok ms => containsOurHook ms
          | Except.error _ => false
        | Except.error _ => false
      | Except.error _ => false) = true ∧
    ClaudeRemoveHook (lstr "\x7b\"hooks\":\x7b\"Foo\":[\x7b\"matcher\":\"\",\"hooks\":[\x7b\"type\":\"command\",\"command\":\"cc-notify x\"\x7d]\x7d]\x7d\x7d") =
      (lstr "\x7b\"hooks\":\x7b\"Foo\":[\x7b\"matcher\":\"\",\"hooks\":[\x7b\"type\":\"command\",\"command\":\"cc-notify x\"\x7d]\x7d]\x7d\x7d",
       false, none) := by
  constructor
  · rfl
  · decide

/-- C9 (amended): on a settings document whose parse, hooks decode and
    Stop/Notification matcher-list decodes succeed, ClaudeRemoveHook returns
    the untouched original content with changed = false exactly when neither
    the decoded "Stop" list nor the decoded "Notification" list contains an
    entry whose command carries the marker (marked entries under any other
    event key are ignored); otherwise it reports changed = true, erases an
    event key whose matcher-group list became empty after stripping, writes
    back a non-empty stripped list, and erases the "hooks" key entirely when
    the whole mapping becomes empty. -/
theorem claude_remove_amended (content : Str) (settings : ClaudeSettings)
    (hooks : List (Str × Json)) (msS msN : List ClaudeHookMatcher)
    (hp : parseClaudeSettings content = .ok settings)
    (hh : getHooks settings = .ok hooks)
    (hS : getMatcherList hooks (lstr "Stop") = .ok msS)
    (hN : getMatcherList hooks (lstr "Notification") = .ok msN) :
    ClaudeRemoveHook content =
      (let hooks2 := removeEventStep (removeEventStep hooks (lstr "Stop") msS)
          (lstr "Notification") msN
       if containsOurHook msS || containsOurHook msN then
         (serializeSettings
           (match hooks2 with
            | [] => eraseKey settings (lstr "hooks")
            | _ => setHooks settings hooks2), true, none)
       else (content, false, none)) := by
  simp only [ClaudeRemoveHook, hp, hh, claudeRemoveEvents_two hooks msS msN hS hN]

/-- Closed-form instance of the amended C9 theorem at the empty settings
    object: no marked entries anywhere, so the remove is a no-op. -/
theorem claude_remove_amended_witness :
    parseClaudeSettings (lstr "{}") = .ok [] ∧
    getHooks [] = .ok [] ∧
    ClaudeRemoveHook (lstr "{}") = (lstr "{}", false, none) := by
  refine ⟨rfl, rfl, ?_⟩
  have h := claude_remove_amended (lstr "{}") [] [] [] [] rfl rfl rfl rfl
  simpa using h

theorem decodeHookEntry_encode (h : ClaudeHookEntry) :
    decodeHookEntry (encodeHookEntry h) = .ok h := by
  obtain ⟨t, c⟩ := h
  rfl

theorem mapM_decodeHookEntry_encode (hs : List ClaudeHookEntry) :
    (hs.map encodeHookEntry).mapM decodeHookEntry = .ok hs := by
  induction hs with
  | nil => rfl
  | cons h t ih =>
    simp only [List.map_cons, List.mapM_cons, decodeHookEntry_encode, except_bind_ok, ih]
    rfl

theorem decodeHookMatcher_encode (m : ClaudeHookMatcher) :
    decodeHookMatcher (encodeHookMatcher m) = .ok m := by
  obtain ⟨mat, hks⟩ := m
  have h1 : lookupKey [(lstr "matcher", Json.str mat),
      (lstr "hooks", Json.arr (hks.map encodeHookEntry))] (lstr "matcher") =
      some (Json.str mat) := rfl
  have h2 : lookupKey [(lstr "matcher", Json.str mat),
      (lstr "hooks", Json.arr (hks.map encodeHookEntry))] (lstr "hooks") =
      some (Json.arr (hks.map encodeHookEntry)) := rfl
  simp only [encodeHookMatcher, decodeHookMatcher, h1, h2, except_bind_ok,
    mapM_decodeHookEntry_encode]

theorem mapM_decodeHookMatcher_encode (ms : List ClaudeHookMatcher) :
    (ms.map encodeHookMatcher).mapM decodeHookMatcher = .ok ms := by
  induction ms with
  | nil => rfl
  | cons m t ih =>
    simp only [List.map_cons, List.mapM_cons, decodeHookMatcher_encode, except_bind_ok, ih]
    rfl

theorem lookupKey_insertKey_self (m : List (Str × Json)) (k : Str) (v : Json) :
    lookupKey (insertKey m k v) k = some v := by
  induction m with
  | nil => simp [insertKey, lookupKey]
  | cons kv rest ih =>
    obtain ⟨k0, v0⟩ := kv
    by_cases h0 : k0 = k
    · simp [insertKey, if_pos h0, lookupKey]
    · simp only [insertKey, if_neg h0, lookupKey, if_neg h0, ih]

theorem getMatcherList_set_self (hooks : List (Str × Json)) (e : Str)
    (ms : List ClaudeHookMatcher) :
    getMatcherList (setMatcherList hooks e ms) e = .ok ms := by
  simp only [getMatcherList, setMatcherList, lookupKey_insertKey_self, decodeMatcherList,
    mapM_decodeHookMatcher_encode]

theorem claudeUpsertEvents_cons (hooks : List (Str × Json)) (cmd : Str) (b : Bool)
    (event : Str) (rest : List Str) (ms : List ClaudeHookMatcher)
    (h : getMatcherList hooks event = .ok ms) :
    claudeUpsertEvents hooks cmd b (event :: rest) =
      claudeUpsertEvents (setMatcherList hooks event
        (ms.filterMap stripGroupSpec ++ [newHookMatcher cmd])) cmd true rest := by
  simp only [claudeUpsertEvents, h, except_bind_ok, removeOurHook_eq, newHookMatcher,
    Bool.or_true]

theorem claudeUpsertEvents_two (hooks : List (Str × Json)) (cmd : Str)
    (msS msN : List ClaudeHookMatcher)
    (hS : getMatcherList hooks (lstr "Stop") = .ok msS)
    (hN : getMatcherList hooks (lstr "Notification") = .ok msN) :
    claudeUpsertEvents hooks cmd false [lstr "Stop", lstr "Notification"] =
      .ok (setMatcherList (setMatcherList hooks (lstr "Stop")
            (msS.filterMap stripGroupSpec ++ [newHookMatcher cmd]))
          (lstr "Notification")
          (msN.filterMap stripGroupSpec ++ [newHookMatcher cmd]), true) := by
  have hne : ¬ lstr "Stop" = lstr "Notification" := by decide
  rw [claudeUpsertEvents_cons _ _ _ _ _ _ hS,
    claudeUpsertEvents_cons _ _ _ _ _ _
      ((getMatcherList_set_ne _ _ _ _ hne).trans hN)]
  rfl

theorem countMarkerEntries_strip (ms : List ClaudeHookMatcher) :
    countMarkerEntries (ms.filterMap stripGroupSpec) = 0 := by
  induction ms with
  | nil => rfl
  | cons m t ih =>
    rw [List.filterMap_cons]
    cases hs : stripGroupSpec m with
    | none => exact ih
    | some m' =>
      have hm' : m'.hooks =
          m.hooks.filter (fun h => ! containsStr h.command claudeHookMarker) := by
        simp only [stripGroupSpec] at hs
        split at hs
        · cases hs
        · cases hs
          rfl
      have hzero : (m'.hooks.filter
          (fun h => containsStr h.command claudeHookMarker)).length = 0 := by
        rw [hm']
        induction m.hooks with
        | nil => rfl
        | cons a l ihl =>
          by_cases hc : containsStr a.command claudeHookMarker = true
          · simp [List.filter_cons, hc, ihl]
          · simp [List.filter_cons, hc, ihl]
      simp only [countMarkerEntries, List.map_cons, List.sum_cons] at ih ⊢
      rw [hzero, ih]

theorem countMarkerEntries_strip_append (ms : List ClaudeHookMatcher) (cmd : Str)
    (hm : containsStr cmd claudeHookMarker = true) :
    countMarkerEntries (ms.filterMap stripGroupSpec ++ [newHookMatcher cmd]) = 1 := by
  have h1 := countMarkerEntries_strip ms
  simp only [countMarkerEntries, List.map_append, List.sum_append] at h1 ⊢
  rw [h1]
  simp [newHookMatcher, List.filter_cons, hm]

/-- C7 counterexample: with an executable path that does not contain the
    marker, ClaudeUpsertHook still succeeds with changed = true, but the
    installed "Stop" entry's command carries no marker at all, so the event
    does not contain exactly one marker-carrying hook entry. -/
theorem claude_upsert_marker_cex :
    (ClaudeUpsertHook [] (lstr "foo")).2 = (true, none) ∧
    (match claudeUpsertEvents [] (buildNotifyCommand (lstr "foo")) false
        [lstr "Stop", lstr "Notification"] with
     | Except.ok (hooks', _) =>
       match getMatcherList hooks' (lstr "Stop") with
       | Except.ok ms => countMarkerEntries ms
       | Except.error _ => 1
     | Except.error _ => 1) = 0 := by
  constructor
  · rfl
  · rfl

/-- C7 (amended): on a settings document whose parse, hooks decode and
    Stop/Notification matcher-list decodes succeed, ClaudeUpsertHook
    succeeds with changed = true, and for each of the two events the final
    hooks map carries the stripped former list with one matcher group
    appended at the end: empty matcher, a single entry of type "command"
    whose command is "<exePath> notify --claude".  Each event then holds
    exactly one marker-carrying hook entry provided the freshly built
    command itself contains the marker; for an exePath free of the marker
    the installed entry carries no marker (see the counterexample). -/
theorem claude_upsert_amended (content exePath : Str) (settings : ClaudeSettings)
    (hooks : List (Str × Json)) (msS msN : List ClaudeHookMatcher)
    (hp : parseClaudeSettings content = .ok settings)
    (hh : getHooks settings = .ok hooks)
    (hS : getMatcherList hooks (lstr "Stop") = .ok msS)
    (hN : getMatcherList hooks (lstr "Notification") = .ok msN) :
    (let newM := newHookMatcher (buildNotifyCommand exePath)
     let final := setMatcherList (setMatcherList hooks (lstr "Stop")
         (msS.filterMap stripGroupSpec ++ [newM])) (lstr "Notification")
         (msN.filterMap stripGroupSpec ++ [newM])
     ClaudeUpsertHook content exePath =
        (serializeSettings (setHooks settings final), true, none) ∧
     getMatcherList final (lstr "Stop") = .ok (msS.filterMap stripGroupSpec ++ [newM]) ∧
     getMatcherList final (lstr "Notification") =
        .ok (msN.filterMap stripGroupSpec ++ [newM]) ∧
     newM = { matcher := [],
              hooks := [{ entryType := lstr "command",
                          command := exePath ++ lstr " notify --claude" }] } ∧
     (containsStr (buildNotifyCommand exePath) claudeHookMarker = true →
       countMarkerEntries (msS.filterMap stripGroupSpec ++ [newM]) = 1 ∧
       countMarkerEntries (msN.filterMap stripGroupSpec ++ [newM]) = 1)) := by
  have hne : ¬ lstr "Notification" = lstr "Stop" := by decide
  refine ⟨?_, ?_, ?_, rfl, fun hm => ⟨countMarkerEntries_strip_append _ _ hm,
    countMarkerEntries_strip_append _ _ hm⟩⟩
  · simp only [ClaudeUpsertHook, hp, hh,
      claudeUpsertEvents_two hooks (buildNotifyCommand exePath) msS msN hS hN]
  · rw [getMatcherList_set_ne _ _ _ _ hne, getMatcherList_set_self]
  · rw [getMatcherList_set_self]

/-- Closed-form instance of the amended C7 theorem on empty settings with a
    marker-carrying executable path. -/
theorem claude_upsert_amended_witness :
    parseClaudeSettings [] = .ok [] ∧
    getHooks [] = .ok [] ∧
    getMatcherList [] (lstr "Stop") = .ok [] ∧
    getMatcherList [] (lstr "Notification") = .ok [] ∧
    (let newM := newHookMatcher (buildNotifyCommand (lstr "cc-notify.exe"))
     let final := setMatcherList (setMatcherList [] (lstr "Stop")
         (List.filterMap stripGroupSpec [] ++ [newM])) (lstr "Notification")
         (List.filterMap stripGroupSpec [] ++ [newM])
     ClaudeUpsertHook [] (lstr "cc-notify.exe") =
        (serializeSettings (setHooks [] final), true, none) ∧
     getMatcherList final (lstr "Stop") =
        .ok (List.filterMap stripGroupSpec [] ++ [newM]) ∧
     getMatcherList final (lstr "Notification") =
        .ok (List.filterMap stripGroupSpec [] ++ [newM]) ∧
     newM = { matcher := [],
              hooks := [{ entryType := lstr "command",
                          command := lstr "cc-notify.exe" ++ lstr " notify --claude" }] } ∧
     (containsStr (buildNotifyCommand (lstr "cc-notify.exe")) claudeHookMarker = true →
       countMarkerEntries (List.filterMap stripGroupSpec [] ++ [newM]) = 1 ∧
       countMarkerEntries (List.filterMap stripGroupSpec [] ++ [newM]) = 1)) :=
  ⟨rfl, rfl, rfl, rfl,
    claude_upsert_amended [] (lstr "cc-notify.exe") [] [] [] [] rfl rfl rfl rfl⟩
